import Mathlib

/-!
# ThreadPool (src/src/thread-pool.cc)

A shallow embedding of the thread pool of `thread-pool.cc` as an interleaving
state machine.  Every thread of the program (the dispatcher, one worker per
slot, the callers of `schedule` and `wait`, the thread running the destructor)
is a sequential program; its program point is kept in the state and one step
of a thread is one access to the shared state.  These pieces of code are taken
as one step each: in `schedule`, taking `queueLock` together with the
`push_front` under it (the queue is accessed only by the holder of the lock),
and `tasksAvailable.signal()` together with the release of the lock on return;
in the dispatcher, taking `queueLock`, the scan under it and its release at
the end of the iteration; in a worker, the return of a task body together with
the write `free = true` that follows it.

The header `thread-pool.h` is not part of the sources: the `semaphore` class,
the record type of the slots and the members of the class are modelled as
described at their definitions.
-/

namespace ThreadPoolModel

/-! ## Data model -/

/-- A task: the `function<void(void)>` handed to `schedule`.  The `id` tells
submissions apart, `throws` says whether the body raises instead of returning. -/
structure Task where
  id : Nat
  throws : Bool
deriving DecidableEq, Repr

/-- Modelled from the spec: the `semaphore` class of `thread-pool.h` (missing),
a counting signal that "accumulates a count of pending wake-ups".  A semaphore
is its count of pending signals; `signal` adds one. -/
def signal (count : Nat) : Nat := count + 1

/-- Modelled from the spec: `semaphore::wait` of `thread-pool.h` (missing):
the waiter "blocks until at least one [wake-up] is available" and consumes it.
`none` is the blocked waiter. -/
def semWait (count : Nat) : Option Nat :=
  if count = 0 then none else some (count - 1)

/-- Program points of `ThreadPool::worker` (lines 53-73). -/
inductive WorkerPc where
  /-- line 54, about to test `!done` -/
  | atLoop
  /-- line 56, in `wts[id].work.wait()` -/
  | atWork
  /-- line 59, woken, about to test `done` -/
  | woken
  /-- line 62, executing `wts[id].thunk()`; the step out of this point is the
  return of the body together with `free = true` (line 65) -/
  | running
  /-- line 66, `free = true` written, about to signal `freeWorker` -/
  | freed
  /-- line 69, about to decrement `tasksInProgress` -/
  | signalled
  /-- line 71, holding the local `remaining` -/
  | decremented (remaining : Int)
  /-- the loop was left, the thread function returned -/
  | exited
deriving DecidableEq, Repr

/-- Modelled from the spec: the record type of the entries of `wts`, declared in
`thread-pool.h` (missing): "Worker Slot: {id: 1..N, free: bool, held-task:
optional Task, wake-signal}".  The fields carry the names the code uses
(`free`, `workerId`, `thunk`, `work`, `ts`); `work` is the count of the
semaphore and `ts` the program point of the thread. -/
structure Worker where
  free : Bool
  workerId : Nat
  thunk : Option Task
  work : Nat
  ts : WorkerPc
deriving DecidableEq, Repr

/-- Program points of `ThreadPool::dispatcher` (lines 28-51). -/
inductive DispatcherPc where
  /-- line 30, about to test `!done` -/
  | atLoop
  /-- line 32, in `tasksAvailable.wait()` -/
  | atTasksAvailable
  /-- line 35, in `freeWorker.wait()` -/
  | atFreeWorker
  /-- lines 38-49, about to take the lock and scan the slots; blocked while
  the lock is held -/
  | atScan
  /-- the loop was left -/
  | exited
deriving DecidableEq, Repr

/-- Program points of `ThreadPool::~ThreadPool` (lines 95-119). -/
inductive DestructorPc where
  /-- the destructor has not been entered -/
  | notCalled
  /-- line 91, inside `wait()`, in `tasksDone.wait()` -/
  | inWait
  /-- line 99, `wait()` returned, about to write `done = true` -/
  | atSetDone
  /-- line 102 -/
  | atSignalTasksAvailable
  /-- line 103 -/
  | atSignalFreeWorker
  /-- lines 104-106, loop index `i` -/
  | atSignalWork (i : Nat)
  /-- lines 109-111 -/
  | atJoinDispatcher
  /-- lines 114-118, loop index `i` -/
  | atJoinWorker (i : Nat)
  /-- the destructor returned -/
  | destroyed
deriving DecidableEq, Repr

/-- Modelled from the spec: the members of class `ThreadPool`, declared in
`thread-pool.h` (missing), under the names the code uses.  `taskQueue` is the
deque, front first; the three semaphores are their counts; `tasksInProgress`
is an integer without bound (line 69 reads it into an `int`; a wrap-around
would need 2^31 tasks in flight).  `queueLock` is true while the mutex is held
between two steps, which only a caller inside `schedule` does: it has pushed
its task (line 83) and not yet signalled (line 86).  `entering` holds the
thunks of the callers inside `schedule` that have incremented the counter
(line 77) and not yet taken the lock (line 80).  `dt`, `dtor` and `waiters` are
the program points of the dispatcher thread, of the thread running the
destructor and of the callers inside `wait()`.  `submitted`, `executed`,
`assigned` and `iterations` are history variables the code does not have:
steps write them and never read them. -/
structure ThreadPool where
  wts : List Worker
  done : Bool
  tasksInProgress : Int
  taskQueue : List Task
  tasksAvailable : Nat
  freeWorker : Nat
  tasksDone : Nat
  queueLock : Bool
  /-- callers of `schedule` between line 77 and line 80, with their thunks -/
  entering : List Task
  dt : DispatcherPc
  /-- the destructor thread -/
  dtor : DestructorPc
  /-- callers that are inside `wait()`, in `tasksDone.wait()` -/
  waiters : Nat
  /-- every task pushed onto the queue by `schedule`, the latest first -/
  submitted : List Task
  /-- every task whose body has returned, the latest first -/
  executed : List Task
  /-- number of tasks the dispatcher has handed to a slot -/
  assigned : Nat
  /-- number of completed iterations of the dispatcher loop -/
  iterations : Nat
deriving DecidableEq, Repr

/-- Why a thread has no next state: it is blocked (in a semaphore wait, in a
join, or it has returned), or an exception left a thread function, for which
C++ calls `std::terminate`. -/
inductive Halt where
  | blocked
  | terminate
deriving DecidableEq, Repr

/-! ## Operations -/

/-- Lines 12-14: `freeWorker.signal()` repeated `n` times. -/
def signalTimes : Nat → Nat → Nat
  | 0, count => count
  | n + 1, count => signalTimes n (signal count)

/-- Lines 20-24: the slots `0 .. n-1` counted from `i`, each with
`free = true`, `workerId = i + 1` and a thread entering `worker(i)`. -/
def initWorkers : Nat → Nat → List Worker
  | 0, _ => []
  | n + 1, i =>
    { free := true, workerId := i + 1, thunk := none, work := 0, ts := WorkerPc.atLoop }
      :: initWorkers n (i + 1)

/-- `ThreadPool::ThreadPool(numThreads)` (lines 10-26). -/
def ThreadPool.new (numThreads : Nat) : ThreadPool :=
  { wts := initWorkers numThreads 0
    done := false
    tasksInProgress := 0
    taskQueue := []
    tasksAvailable := 0
    freeWorker := signalTimes numThreads 0
    tasksDone := 0
    queueLock := false
    entering := []
    dt := DispatcherPc.atLoop
    dtor := DestructorPc.notCalled
    waiters := 0
    submitted := []
    executed := []
    assigned := 0
    iterations := 0 }

/-- `ThreadPool::schedule`, line 77: `tasksInProgress++`; the caller goes on to
take the lock. -/
def scheduleEnter (thunk : Task) (s : ThreadPool) : ThreadPool :=
  { s with
    tasksInProgress := s.tasksInProgress + 1
    entering := thunk :: s.entering }

/-- `ThreadPool::schedule`, lines 80-83: a caller that has passed line 77 with
`thunk` takes `queueLock` and runs `taskQueue.push_front(thunk)`; it keeps the
lock.  Blocked while the lock is held. -/
def schedulePush (thunk : Task) (s : ThreadPool) : Except Halt ThreadPool :=
  if s.queueLock then .error .blocked
  else if thunk ∈ s.entering then
    .ok { s with
          queueLock := true
          entering := s.entering.erase thunk
          taskQueue := thunk :: s.taskQueue
          submitted := thunk :: s.submitted }
  else .error .blocked

/-- `ThreadPool::schedule`, lines 86-87: the caller that holds `queueLock`
runs `tasksAvailable.signal()` and returns, which releases the lock. -/
def scheduleSignal (s : ThreadPool) : Except Halt ThreadPool :=
  if s.queueLock then
    .ok { s with tasksAvailable := signal s.tasksAvailable, queueLock := false }
  else .error .blocked

/-- `ThreadPool::schedule` (lines 75-87) run from entry to return with no step
of another thread in between: `tasksInProgress++`,
`taskQueue.push_front(thunk)`, `tasksAvailable.signal()`. -/
def schedule (thunk : Task) (s : ThreadPool) : ThreadPool :=
  { s with
    tasksInProgress := s.tasksInProgress + 1
    taskQueue := thunk :: s.taskQueue
    tasksAvailable := signal s.tasksAvailable
    submitted := thunk :: s.submitted }

/-- The `for` loop of the dispatcher (lines 42-49) over the slots from the
current index on: a slot that is free while the queue is not empty receives
`taskQueue.back()`, the queue loses its back, `free` becomes false and `work`
is signalled. -/
def scan : List Worker → List Task → List Worker × List Task
  | [], q => ([], q)
  | w :: ws, q =>
    if w.free && !q.isEmpty then
      ({ w with thunk := q.getLast?, free := false, work := signal w.work }
          :: (scan ws q.dropLast).1,
        (scan ws q.dropLast).2)
    else
      (w :: (scan ws q).1, (scan ws q).2)

/-- One step of the dispatcher thread (lines 28-51). -/
def dispatcherStep (s : ThreadPool) : Except Halt ThreadPool :=
  match s.dt with
  | .atLoop =>
    if s.done then .ok { s with dt := .exited }
    else .ok { s with dt := .atTasksAvailable }
  | .atTasksAvailable =>
    match semWait s.tasksAvailable with
    | none => .error .blocked
    | some c => .ok { s with tasksAvailable := c, dt := .atFreeWorker }
  | .atFreeWorker =>
    match semWait s.freeWorker with
    | none => .error .blocked
    | some c => .ok { s with freeWorker := c, dt := .atScan }
  | .atScan =>
    if s.queueLock then .error .blocked
    else
    .ok { s with
          wts := (scan s.wts s.taskQueue).1
          taskQueue := (scan s.wts s.taskQueue).2
          dt := .atLoop
          assigned := s.assigned + (s.taskQueue.length - (scan s.wts s.taskQueue).2.length)
          iterations := s.iterations + 1 }
  | .exited => .error .blocked

/-- One step of the thread of slot `id` (lines 53-73). -/
def workerStep (id : Nat) (s : ThreadPool) : Except Halt ThreadPool :=
  match s.wts[id]? with
  | none => .error .blocked
  | some w =>
    match w.ts with
    | .atLoop =>
      .ok { s with wts := s.wts.set id { w with ts := if s.done then .exited else .atWork } }
    | .atWork =>
      match semWait w.work with
      | none => .error .blocked
      | some c => .ok { s with wts := s.wts.set id { w with work := c, ts := .woken } }
    | .woken =>
      .ok { s with wts := s.wts.set id { w with ts := if s.done then .exited else .running } }
    | .running =>
      match w.thunk with
      | none => .error .terminate
      | some t =>
        if t.throws then .error .terminate
        else .ok { s with
                   executed := t :: s.executed
                   wts := s.wts.set id { w with free := true, ts := .freed } }
    | .freed =>
      .ok { s with
            freeWorker := signal s.freeWorker
            wts := s.wts.set id { w with ts := .signalled } }
    | .signalled =>
      .ok { s with
            tasksInProgress := s.tasksInProgress - 1
            wts := s.wts.set id { w with ts := .decremented (s.tasksInProgress - 1) } }
    | .decremented remaining =>
      .ok { s with
            tasksDone := if remaining = 0 then signal s.tasksDone else s.tasksDone
            wts := s.wts.set id { w with ts := .atLoop } }
    | .exited => .error .blocked

/-- A caller enters `ThreadPool::wait` (line 90): with `tasksInProgress > 0`
it goes on to `tasksDone.wait()`, otherwise `wait` returns at once. -/
def waitEnter (s : ThreadPool) : ThreadPool :=
  if s.tasksInProgress > 0 then { s with waiters := s.waiters + 1 } else s

/-- A caller inside `tasksDone.wait()` (line 91) takes a signal and `wait`
returns. -/
def waitReturn (s : ThreadPool) : Except Halt ThreadPool :=
  if s.waiters = 0 then .error .blocked
  else
    match semWait s.tasksDone with
    | none => .error .blocked
    | some c => .ok { s with tasksDone := c, waiters := s.waiters - 1 }

/-- Lines 104-106, one iteration: `wts[i].work.signal()`. -/
def signalWork (i : Nat) (ws : List Worker) : List Worker :=
  match ws[i]? with
  | none => ws
  | some w => ws.set i { w with work := signal w.work }

/-- One step of the thread running `ThreadPool::~ThreadPool` (lines 95-119);
the first two program points are the body of `wait()` (lines 89-93). -/
def destructorStep (s : ThreadPool) : Except Halt ThreadPool :=
  match s.dtor with
  | .notCalled =>
    if s.tasksInProgress > 0 then .ok { s with dtor := .inWait }
    else .ok { s with dtor := .atSetDone }
  | .inWait =>
    match semWait s.tasksDone with
    | none => .error .blocked
    | some c => .ok { s with tasksDone := c, dtor := .atSetDone }
  | .atSetDone => .ok { s with done := true, dtor := .atSignalTasksAvailable }
  | .atSignalTasksAvailable =>
    .ok { s with tasksAvailable := signal s.tasksAvailable, dtor := .atSignalFreeWorker }
  | .atSignalFreeWorker =>
    .ok { s with freeWorker := signal s.freeWorker, dtor := .atSignalWork 0 }
  | .atSignalWork i =>
    if i < s.wts.length then
      .ok { s with wts := signalWork i s.wts, dtor := .atSignalWork (i + 1) }
    else .ok { s with dtor := .atJoinDispatcher }
  | .atJoinDispatcher =>
    if s.dt = .exited then .ok { s with dtor := .atJoinWorker 0 }
    else .error .blocked
  | .atJoinWorker i =>
    match s.wts[i]? with
    | none => .ok { s with dtor := .destroyed }
    | some w =>
      if w.ts = .exited then .ok { s with dtor := .atJoinWorker (i + 1) }
      else .error .blocked
  | .destroyed => .error .blocked

/-! ## The interleaving semantics -/

/-- The threads of the program; a caller thread is named by the call it makes. -/
inductive Thread where
  /-- a caller enters `schedule(thunk)` and runs line 77 -/
  | scheduleEnter (thunk : Task)
  /-- a caller inside `schedule(thunk)` runs lines 80-83 -/
  | schedulePush (thunk : Task)
  /-- the caller inside `schedule` that holds the lock runs lines 86-87 -/
  | scheduleSignal
  /-- a caller enters `wait()` -/
  | waitEnter
  /-- a caller leaves `tasksDone.wait()` -/
  | waitReturn
  /-- the dispatcher thread `dt` -/
  | dispatcher
  /-- the thread `wts[id].ts` -/
  | worker (id : Nat)
  /-- the thread that runs the destructor -/
  | destructor
deriving DecidableEq, Repr

/-- One step of the given thread. -/
def exec (t : Thread) (s : ThreadPool) : Except Halt ThreadPool :=
  match t with
  | .scheduleEnter thunk => .ok (scheduleEnter thunk s)
  | .schedulePush thunk => schedulePush thunk s
  | .scheduleSignal => scheduleSignal s
  | .waitEnter => .ok (waitEnter s)
  | .waitReturn => waitReturn s
  | .dispatcher => dispatcherStep s
  | .worker id => workerStep id s
  | .destructor => destructorStep s

/-- A run: the threads step in the listed order. -/
def run : List Thread → ThreadPool → Except Halt ThreadPool
  | [], s => .ok s
  | t :: ts, s =>
    match exec t s with
    | .ok s1 => run ts s1
    | .error e => .error e

/-- The states of a running pool of `n` workers: those reached from the
constructed pool by steps of any threads, as long as `done` is false. -/
inductive Running (n : Nat) : ThreadPool → Prop where
  | init : Running n (ThreadPool.new n)
  | step {s s1 : ThreadPool} (t : Thread) :
      Running n s → exec t s = .ok s1 → s1.done = false → Running n s1

/-! ## Observations on a state -/

/-- Number of slots whose `free` flag is false. -/
def busy (ws : List Worker) : Nat := ws.countP (fun w => !w.free)

/-- Number of slots whose `free` flag is true. -/
def freeSlots (ws : List Worker) : Nat := ws.countP (fun w => w.free)

/-- Number of workers inside `wts[id].thunk()` (line 62). -/
def executing (ws : List Worker) : Nat := ws.countP (fun w => decide (w.ts = .running))

/-- Number of workers that have written `free = true` (line 65) and not yet
signalled `freeWorker` (line 66). -/
def unsignalled (ws : List Worker) : Nat := ws.countP (fun w => decide (w.ts = .freed))

/-- Number of workers between the write `free = true` (line 65) and the
decrement of `tasksInProgress` (line 69): the completion of their task is
under way. -/
def completing (ws : List Worker) : Nat :=
  ws.countP (fun w => decide (w.ts = .freed ∨ w.ts = .signalled))

/-- The thunks held by the slots that are not free, in slot order. -/
def held (ws : List Worker) : List Task :=
  ws.filterMap (fun w => if w.free then none else w.thunk)

/-- One when the worker has taken its wake signal and not yet finished the
task body (lines 59-62), zero otherwise. -/
def woke (pc : WorkerPc) : Nat :=
  match pc with
  | .woken => 1
  | .running => 1
  | _ => 0

/-- One when the worker is executing a task body (line 62), zero otherwise. -/
def inThunk (pc : WorkerPc) : Nat :=
  match pc with
  | .running => 1
  | _ => 0

/-- One when the dispatcher has taken a `tasksAvailable` signal in the current
iteration, zero when it is at the top of its loop. -/
def tookTask (pc : DispatcherPc) : Nat :=
  match pc with
  | .atFreeWorker => 1
  | .atScan => 1
  | _ => 0

/-- One when the dispatcher has taken a `freeWorker` signal in the current
iteration. -/
def tookWorker (pc : DispatcherPc) : Nat :=
  match pc with
  | .atScan => 1
  | _ => 0

/-- Number of callers of `schedule` that have pushed their task (line 83) and
not yet signalled `tasksAvailable` (line 86): one while the lock is held. -/
def pushed (s : ThreadPool) : Nat := if s.queueLock then 1 else 0

/-- The dispatcher is between iterations: at the loop test (line 30) or in
`tasksAvailable.wait()` (line 32). -/
def atTop (pc : DispatcherPc) : Bool :=
  match pc with
  | .atLoop => true
  | .atTasksAvailable => true
  | _ => false

/-- The per-slot handshake: at most one unfinished assignment, none on a free
slot, the thread has not left its loop, and a slot that is not free holds a
thunk. -/
structure SlotOk (w : Worker) : Prop where
  one : w.work + woke w.ts ≤ 1
  idle : w.free = true → w.work + woke w.ts = 0
  live : w.ts ≠ .exited
  holds : w.free = false → w.thunk.isSome = true

/-- The inductive invariant of a running pool of `n` workers. -/
structure Inv (n : Nat) (s : ThreadPool) : Prop where
  len : s.wts.length = n
  notDone : s.done = false
  dtorPc : s.dtor = .notCalled ∨ s.dtor = .inWait ∨ s.dtor = .atSetDone
  dtLive : s.dt ≠ .exited
  slots : ∀ w ∈ s.wts, SlotOk w
  counter : s.tasksInProgress
      = s.taskQueue.length + busy s.wts + completing s.wts + s.entering.length
  lockQueue : s.queueLock = true → s.taskQueue ≠ []
  once : (s.taskQueue ++ held s.wts ++ s.executed).Perm s.submitted
  order : s.taskQueue <+: s.submitted
  surplus : s.iterations ≤ s.assigned
  avail : s.tasksAvailable + pushed s + tookTask s.dt + s.iterations
      = s.taskQueue.length + s.assigned
  freeAcc : s.freeWorker + tookWorker s.dt + unsignalled s.wts + s.iterations
      = freeSlots s.wts + s.assigned

/-! ## Concrete runs -/

/-- A task whose body returns. -/
def taskA : Task := { id := 1, throws := false }

/-- A second task whose body returns. -/
def taskB : Task := { id := 2, throws := false }

/-- A third task whose body returns. -/
def taskC : Task := { id := 3, throws := false }

/-- A task whose body raises an error. -/
def taskT : Task := { id := 4, throws := true }

/-- A call `schedule(thunk)` from entry to return: line 77, lines 80-83,
lines 86-87. -/
def scheduleCall (thunk : Task) : List Thread :=
  [.scheduleEnter thunk, .schedulePush thunk, .scheduleSignal]

/-- The dispatcher runs from the loop test through one full iteration:
loop test, `tasksAvailable.wait()`, `freeWorker.wait()`, scan. -/
def dispatcherPass : List Thread :=
  [.dispatcher, .dispatcher, .dispatcher, .dispatcher]

/-- Worker `id` runs from the loop test to the end of its task body: loop
test, `work.wait()`, test of `done`, body and `free = true`. -/
def workerRuns (id : Nat) : List Thread :=
  [.worker id, .worker id, .worker id, .worker id]

/-- Worker `id` finishes the iteration after `free = true`:
`freeWorker.signal()`, the decrement, `tasksDone.signal()` when zero. -/
def workerReports (id : Nat) : List Thread :=
  [.worker id, .worker id, .worker id]

/-- The state a run leads to from the pool constructed with `n` workers (the
constructed pool itself when the run cannot be taken). -/
def stateAfter (n : Nat) (ts : List Thread) : ThreadPool :=
  match run ts (ThreadPool.new n) with
  | .ok s => s
  | .error _ => ThreadPool.new n

/-- One worker: task A is scheduled, dispatched and completed while nobody is
inside `wait()`; then task B is scheduled. -/
def staleSignalRun : List Thread :=
  scheduleCall taskA ++ dispatcherPass ++ workerRuns 0 ++ workerReports 0 ++
  scheduleCall taskB

/-- One worker: tasks A then B are scheduled, and the dispatcher goes up to
the scan. -/
def twoQueuedRun : List Thread :=
  scheduleCall taskA ++ scheduleCall taskB ++ [.dispatcher, .dispatcher, .dispatcher]

/-- Two workers, worker 1 is in `work.wait()` throughout: A is dispatched to
slot 0 and run up to `free = true`; B is
scheduled and dispatched to slot 0 again before worker 0 signals `freeWorker`;
C is scheduled and the dispatcher takes its `tasksAvailable` signal. -/
def pendingSignalRun : List Thread :=
  [.worker 1] ++ scheduleCall taskA ++ dispatcherPass ++ workerRuns 0 ++
  scheduleCall taskB ++ dispatcherPass ++
  scheduleCall taskC ++ [.dispatcher, .dispatcher]

/-- The destructor runs `wait()` and writes `done = true` (three steps), then
sends its wake signals; the dispatcher and worker 0 see `done` at their loop
tests and leave; the destructor joins them and returns. -/
def shutdownRun : List Thread :=
  [.destructor, .destructor, .destructor] ++
  [.destructor, .destructor, .destructor, .destructor] ++
  [.dispatcher, .worker 0] ++ [.destructor, .destructor, .destructor]

/-- One worker: task A is scheduled and the dispatcher completes a pass, which
hands A to slot 0; worker 0 has not yet taken its wake signal. -/
def assignedRun : List Thread :=
  scheduleCall taskA ++ dispatcherPass

/-- One worker: the dispatcher reaches `tasksAvailable.wait()`; a caller of
`schedule(A)` has pushed A and not yet signalled. -/
def pushedRun : List Thread :=
  [.dispatcher, .scheduleEnter taskA, .schedulePush taskA]

/-- One worker: the throwing task T is scheduled and dispatched, and worker 0
reaches the call of its body. -/
def throwingRun : List Thread :=
  scheduleCall taskT ++ dispatcherPass ++ [.worker 0, .worker 0, .worker 0]

/-! ## Shutdown -/

/-- The threads that run while the owner is inside the destructor and no other
caller is active: the destructor, the dispatcher and the workers. -/
def isInternal : Thread → Bool
  | .dispatcher => true
  | .worker _ => true
  | .destructor => true
  | _ => false

/-- The states reached from `s0` by steps of the destructor, the dispatcher and
the workers, in any order. -/
inductive Shutdown (s0 : ThreadPool) : ThreadPool → Prop where
  | start : Shutdown s0 s0
  | step {s s1 : ThreadPool} (t : Thread) :
      Shutdown s0 s → isInternal t = true → exec t s = .ok s1 → Shutdown s0 s1

/-- How far the destructor has come. -/
def stage : DestructorPc → Nat
  | .notCalled => 0
  | .inWait => 1
  | .atSetDone => 2
  | .atSignalTasksAvailable => 3
  | .atSignalFreeWorker => 4
  | .atSignalWork _ => 5
  | .atJoinDispatcher => 6
  | .atJoinWorker _ => 7
  | .destroyed => 8

/-- The slots below this index have had their `work` signalled by the
destructor (lines 104-106), in a pool of `n` workers. -/
def sentUpTo (n : Nat) : DestructorPc → Nat
  | .atSignalWork i => i
  | .atJoinDispatcher => n
  | .atJoinWorker _ => n
  | .destroyed => n
  | _ => 0

/-- The threads of the slots below this index have been joined by the
destructor (lines 114-118), in a pool of `n` workers. -/
def joinedUpTo (n : Nat) : DestructorPc → Nat
  | .atJoinWorker i => i
  | .destroyed => n
  | _ => 0

/-- Steps the destructor has still to take in a pool of `n` workers. -/
def destructorWeight (n : Nat) : DestructorPc → Nat
  | .notCalled => 2 * n + 8
  | .inWait => 2 * n + 7
  | .atSetDone => 2 * n + 6
  | .atSignalTasksAvailable => 2 * n + 5
  | .atSignalFreeWorker => 2 * n + 4
  | .atSignalWork i => 2 * n + 3 - i
  | .atJoinDispatcher => n + 2
  | .atJoinWorker i => n + 1 - i
  | .destroyed => 0

/-- Steps the dispatcher can still take: four for every pending signal of
`tasksAvailable`, plus the rest of the current iteration. -/
def dispatcherWeight (s : ThreadPool) : Nat :=
  4 * s.tasksAvailable +
    match s.dt with
    | .atLoop => 3
    | .atTasksAvailable => 2
    | .atFreeWorker => 5
    | .atScan => 4
    | .exited => 0

/-- Steps a worker that is given no task can still take. -/
def workerWeight : WorkerPc → Nat
  | .running => 7
  | .freed => 6
  | .signalled => 5
  | .decremented _ => 4
  | .atLoop => 3
  | .atWork => 2
  | .woken => 1
  | .exited => 0

/-- A bound on the number of steps the destructor, the dispatcher and the
workers can still take during the shutdown of an idle pool of `n` workers. -/
def shutdownMeasure (n : Nat) (s : ThreadPool) : Nat :=
  5 * destructorWeight n s.dtor + dispatcherWeight s
    + (s.wts.map (fun w => workerWeight w.ts)).sum

/-- A slot of an idle pool during shutdown: free, its worker not inside a task
or its completion, and woken or signalled only after `done` was written. -/
structure Parked (done : Bool) (w : Worker) : Prop where
  free : w.free = true
  notRunning : w.ts ≠ .running
  notFreed : w.ts ≠ .freed
  notSignalled : w.ts ≠ .signalled
  woken : w.ts = .woken → done = true
  work : 0 < w.work → done = true

/-- The invariant of the shutdown of an idle pool of `n` workers started in
state `s0`. -/
structure Stopping (n : Nat) (s0 s : ThreadPool) : Prop where
  len : s.wts.length = n
  queue : s.taskQueue = []
  log : s.executed = s0.executed
  asg : s.assigned = s0.assigned
  tip : s.tasksInProgress = 0
  unlocked : s.queueLock = false
  stageDone : s.done = true ↔ 3 ≤ stage s.dtor
  notInWait : s.dtor ≠ .inWait
  sentLe : sentUpTo n s.dtor ≤ n
  joinedLe : joinedUpTo n s.dtor ≤ n
  slots : ∀ w ∈ s.wts, Parked s.done w
  taOk : 4 ≤ stage s.dtor → s.dt = .atTasksAvailable → 0 < s.tasksAvailable
  fwOk : 5 ≤ stage s.dtor → s.dt = .atTasksAvailable ∨ s.dt = .atFreeWorker →
    0 < s.freeWorker
  workOk : ∀ (i : Nat) (w : Worker), s.wts[i]? = some w → i < sentUpTo n s.dtor →
    w.ts = .atWork → 0 < w.work
  dtJoined : 7 ≤ stage s.dtor → s.dt = .exited
  joined : ∀ (i : Nat) (w : Worker), s.wts[i]? = some w → i < joinedUpTo n s.dtor →
    w.ts = .exited

/-- One worker, no task ever scheduled: the dispatcher and worker 0 reach their
waits; the destructor runs `wait()`, writes `done` and sends its signals; the
dispatcher passes both waits, scans and leaves; worker 0 passes its wait and
leaves; the destructor joins both. -/
def idleShutdownRun : List Thread :=
  [.dispatcher, .worker 0] ++
  [.destructor, .destructor, .destructor, .destructor, .destructor, .destructor] ++
  [.dispatcher, .dispatcher, .dispatcher, .dispatcher] ++
  [.worker 0, .worker 0] ++
  [.destructor, .destructor, .destructor]

/-! ## Lists of slots -/

theorem countP_set_slot (p : Worker → Bool) :
    ∀ (ws : List Worker) (i : Nat) (w v : Worker), ws[i]? = some w →
      (ws.set i v).countP p + (if p w then 1 else 0) = ws.countP p + (if p v then 1 else 0)
  | [], i, w, v, h => by simp at h
  | a :: ws, 0, w, v, h => by
    simp at h
    subst h
    simp [List.countP_cons]
    omega
  | a :: ws, i + 1, w, v, h => by
    simp at h
    have ih := countP_set_slot p ws i w v h
    simp [List.countP_cons]
    omega

theorem mem_of_getElem?_slot {ws : List Worker} {i : Nat} {w : Worker}
    (h : ws[i]? = some w) : w ∈ ws := by
  rw [List.getElem?_eq_some] at h
  obtain ⟨hi, rfl⟩ := h
  exact List.getElem_mem hi

theorem forall_set_slot {P : Worker → Prop} {ws : List Worker} {i : Nat} {v : Worker}
    (hall : ∀ w ∈ ws, P w) (hv : P v) : ∀ w ∈ ws.set i v, P w := by
  intro w hw
  rcases List.mem_or_eq_of_mem_set hw with h | h
  · exact hall w h
  · exact h ▸ hv

theorem held_set_busy :
    ∀ (ws : List Worker) (i : Nat) (w v : Worker), ws[i]? = some w →
      v.free = w.free → v.thunk = w.thunk → held (ws.set i v) = held ws
  | [], i, w, v, h, _, _ => by simp at h
  | a :: ws, 0, w, v, h, hf, ht => by
    simp at h
    subst h
    simp [held, List.filterMap_cons, hf, ht]
  | a :: ws, i + 1, w, v, h, hf, ht => by
    simp at h
    have ih := held_set_busy ws i w v h hf ht
    simp only [held] at ih
    simp [held, List.filterMap_cons, ih]

theorem held_set_release :
    ∀ (ws : List Worker) (i : Nat) (w v : Worker) (t : Task), ws[i]? = some w →
      w.free = false → w.thunk = some t → v.free = true →
      (held ws).Perm (t :: held (ws.set i v))
  | [], i, w, v, t, h, _, _, _ => by simp at h
  | a :: ws, 0, w, v, t, h, hf, ht, hv => by
    simp at h
    subst h
    simp [held, List.filterMap_cons, hf, ht, hv]
  | a :: ws, i + 1, w, v, t, h, hf, ht, hv => by
    simp at h
    have ih := held_set_release ws i w v t h hf ht hv
    simp only [held] at ih
    simp only [held, List.set_cons_succ, List.filterMap_cons]
    split
    · exact ih
    · exact (List.Perm.cons _ ih).trans (List.Perm.swap _ _ _)

/-! ## The dispatcher scan -/

theorem scan_length : ∀ (ws : List Worker) (q : List Task), (scan ws q).1.length = ws.length
  | [], q => rfl
  | w :: ws, q => by
    simp only [scan]
    split <;> simp [scan_length ws]

theorem scan_ts : ∀ (ws : List Worker) (q : List Task),
    (scan ws q).1.map Worker.ts = ws.map Worker.ts
  | [], q => rfl
  | w :: ws, q => by
    simp only [scan]
    split <;> simp [scan_ts ws]

theorem countP_ts (p : WorkerPc → Bool) (ws : List Worker) :
    ws.countP (fun w => p w.ts) = (ws.map Worker.ts).countP p := by
  rw [List.countP_map]
  rfl

theorem scan_countP_ts (p : WorkerPc → Bool) (ws : List Worker) (q : List Task) :
    (scan ws q).1.countP (fun w => p w.ts) = ws.countP (fun w => p w.ts) := by
  rw [countP_ts, countP_ts, scan_ts]

theorem scan_queue_length : ∀ (ws : List Worker) (q : List Task),
    (scan ws q).2.length = q.length - freeSlots ws
  | [], q => by simp [scan, freeSlots]
  | w :: ws, q => by
    have h1 := scan_queue_length ws q
    have h2 := scan_queue_length ws q.dropLast
    simp only [scan, freeSlots, List.countP_cons] at *
    cases hf : w.free <;> cases q <;> simp_all

theorem scan_freeSlots : ∀ (ws : List Worker) (q : List Task),
    freeSlots (scan ws q).1 = freeSlots ws - q.length
  | [], q => by simp [scan, freeSlots]
  | w :: ws, q => by
    have h1 := scan_freeSlots ws q
    have h2 := scan_freeSlots ws q.dropLast
    simp only [scan, freeSlots, List.countP_cons] at *
    cases hf : w.free <;> cases q <;> simp_all

theorem busy_add_freeSlots (ws : List Worker) : busy ws + freeSlots ws = ws.length := by
  induction ws with
  | nil => rfl
  | cons w ws ih =>
    simp only [busy, freeSlots, List.countP_cons, List.length_cons] at *
    cases w.free <;> simp <;> omega

theorem scan_queue : ∀ (ws : List Worker) (q : List Task),
    (scan ws q).2 = q.take (q.length - freeSlots ws)
  | [], q => by simp [scan, freeSlots]
  | w :: ws, q => by
    have h1 := scan_queue ws q
    have h2 := scan_queue ws q.dropLast
    simp only [scan, freeSlots, List.countP_cons] at *
    cases hf : w.free
    · simp [h1]
    · cases q with
      | nil => simpa using h1
      | cons a l =>
        simp only [List.isEmpty_cons, Bool.not_false, Bool.and_self, if_true, hf]
        rw [h2, List.dropLast_eq_take, List.take_take]
        congr 1
        simp only [List.length_take, List.length_cons]
        omega

theorem perm_insert_mid {α : Type} (x a b c d : List α) (h : (a ++ b).Perm (c ++ d)) :
    (a ++ (x ++ b)).Perm (c ++ (x ++ d)) := by
  have e1 : (a ++ (x ++ b)).Perm (x ++ (a ++ b)) := by
    rw [← List.append_assoc, ← List.append_assoc]
    exact List.Perm.append_right b List.perm_append_comm
  have e2 : (x ++ (c ++ d)).Perm (c ++ (x ++ d)) := by
    rw [← List.append_assoc, ← List.append_assoc]
    exact List.Perm.append_right d List.perm_append_comm
  exact e1.trans ((List.Perm.append_left x h).trans e2)

theorem held_cons (w : Worker) (ws : List Worker) :
    held (w :: ws) = (if w.free then none else w.thunk).toList ++ held ws := by
  simp only [held, List.filterMap_cons]
  cases h : (if w.free = true then none else w.thunk) <;> simp

theorem scan_perm : ∀ (ws : List Worker) (q : List Task),
    ((scan ws q).2 ++ held (scan ws q).1).Perm (q ++ held ws)
  | [], q => by simp [scan]
  | w :: ws, q => by
    have h1 := scan_perm ws q
    have h2 := scan_perm ws q.dropLast
    simp only [scan]
    split
    next h =>
      simp only [Bool.and_eq_true, Bool.not_eq_true', List.isEmpty_eq_false] at h
      obtain ⟨hf, hq⟩ := h
      have hne : q ≠ [] := by simpa using hq
      obtain ⟨t, ht⟩ : ∃ t, q.getLast? = some t := by
        cases h : q.getLast? with
        | none => simp [List.getLast?_eq_none_iff] at h; exact absurd h hne
        | some t => exact ⟨t, rfl⟩
      have hq2 : q.dropLast ++ [t] = q :=
        List.dropLast_append_getLast? t (by simpa using ht)
      have h3 := perm_insert_mid [t] _ _ _ _ h2
      rw [held_cons, held_cons]
      simp only [ht, hf, if_true, Option.toList_none, List.nil_append, Bool.false_eq_true,
        if_false, Option.toList_some]
      rw [← List.append_assoc q.dropLast, hq2] at h3
      exact h3
    next h =>
      rw [held_cons, held_cons]
      exact perm_insert_mid _ _ _ _ _ h1

theorem scan_slots : ∀ (ws : List Worker) (q : List Task),
    (∀ w ∈ ws, SlotOk w) → ∀ w ∈ (scan ws q).1, SlotOk w
  | [], q, _ => by simp [scan]
  | w :: ws, q, h => by
    have hw : SlotOk w := h w (List.mem_cons_self _ _)
    have hws : ∀ v ∈ ws, SlotOk v := fun v hv => h v (List.mem_cons_of_mem _ hv)
    simp only [scan]
    split
    next hc =>
      simp only [Bool.and_eq_true] at hc
      have hz := hw.idle hc.1
      intro v hv
      rcases List.mem_cons.1 hv with rfl | hv
      · refine ⟨?_, ?_, hw.live, ?_⟩
        · simp only [signal]; omega
        · simp
        · intro _
          cases q with
          | nil => simp at hc
          | cons a l => simp [List.getLast?_cons_cons, List.getLast?_isSome]
      · exact scan_slots ws _ hws v hv
    next hc =>
      intro v hv
      rcases List.mem_cons.1 hv with rfl | hv
      · exact hw
      · exact scan_slots ws _ hws v hv

/-! ## The invariant holds initially -/

theorem signalTimes_eq : ∀ (n c : Nat), signalTimes n c = c + n
  | 0, c => rfl
  | n + 1, c => by
    simp only [signalTimes, signal, signalTimes_eq n]
    omega

theorem initWorkers_length : ∀ (n i : Nat), (initWorkers n i).length = n
  | 0, _ => rfl
  | n + 1, i => by simp [initWorkers, initWorkers_length n]

theorem initWorkers_fresh : ∀ (n i : Nat), ∀ w ∈ initWorkers n i,
    w.free = true ∧ w.work = 0 ∧ w.ts = .atLoop ∧ w.thunk = none
  | 0, _, w, h => by simp [initWorkers] at h
  | n + 1, i, w, h => by
    simp only [initWorkers, List.mem_cons] at h
    rcases h with rfl | h
    · simp
    · exact initWorkers_fresh n (i + 1) w h

theorem countP_eq_zero_of {p : Worker → Bool} {ws : List Worker}
    (h : ∀ w ∈ ws, p w = false) : ws.countP p = 0 := by
  rw [List.countP_eq_zero]
  intro w hw
  simp [h w hw]

theorem countP_eq_length_of {p : Worker → Bool} {ws : List Worker}
    (h : ∀ w ∈ ws, p w = true) : ws.countP p = ws.length := by
  rw [List.countP_eq_length]
  exact h

theorem held_eq_nil_of {ws : List Worker} (h : ∀ w ∈ ws, w.free = true) : held ws = [] := by
  induction ws with
  | nil => rfl
  | cons w ws ih =>
    rw [held_cons, ih (fun v hv => h v (List.mem_cons_of_mem _ hv))]
    simp [h w (List.mem_cons_self _ _)]

theorem inv_new (n : Nat) : Inv n (ThreadPool.new n) := by
  have hf := initWorkers_fresh n 0
  have hb : busy (initWorkers n 0) = 0 :=
    countP_eq_zero_of (fun w hw => by simp [(hf w hw).1])
  have hc : completing (initWorkers n 0) = 0 :=
    countP_eq_zero_of (fun w hw => by simp [(hf w hw).2.2.1])
  have hu : unsignalled (initWorkers n 0) = 0 :=
    countP_eq_zero_of (fun w hw => by simp [(hf w hw).2.2.1])
  have hfree : freeSlots (initWorkers n 0) = n := by
    rw [freeSlots, countP_eq_length_of (fun w hw => (hf w hw).1), initWorkers_length]
  have hh : held (initWorkers n 0) = [] := held_eq_nil_of (fun w hw => (hf w hw).1)
  refine
    { len := initWorkers_length n 0
      notDone := rfl
      dtorPc := Or.inl rfl
      dtLive := by simp [ThreadPool.new]
      slots := ?_
      counter := by simp [ThreadPool.new, hb, hc]
      lockQueue := by simp [ThreadPool.new]
      once := by simp [ThreadPool.new, hh]
      order := by simp [ThreadPool.new]
      surplus := by simp [ThreadPool.new]
      avail := by simp [ThreadPool.new, tookTask, pushed]
      freeAcc := by simp [ThreadPool.new, tookWorker, hu, hfree, signalTimes_eq] }
  intro w hw
  obtain ⟨h1, h2, h3, _⟩ := hf w hw
  exact ⟨by simp [h2, h3, woke], fun _ => by simp [h2, h3, woke], by simp [h3],
    fun hb => by simp [h1] at hb⟩

/-! ## Every step keeps the invariant -/

theorem inv_scheduleEnter {n : Nat} {s : ThreadPool} (t : Task) (h : Inv n s) :
    Inv n (scheduleEnter t s) :=
  { h with
    counter := by
      have := h.counter
      simp only [scheduleEnter, List.length_cons]
      push_cast
      omega }

theorem inv_schedulePush {n : Nat} {s s1 : ThreadPool} (t : Task) (h : Inv n s)
    (hs : schedulePush t s = .ok s1) : Inv n s1 := by
  unfold schedulePush at hs
  split at hs
  · cases hs
  next hl =>
    split at hs
    next hm =>
      cases hs
      have hlen := List.length_erase_of_mem hm
      have hpos : 0 < s.entering.length := List.length_pos_of_mem hm
      have hc := h.counter
      have ha := h.avail
      simp only [pushed, hl, Bool.false_eq_true, if_false] at ha
      exact
        { h with
          counter := by
            simp only [List.length_cons, hlen]
            push_cast
            omega
          lockQueue := by simp
          once := by simpa using h.once
          order := by simpa [List.cons_prefix_cons] using h.order
          avail := by
            simp only [pushed, if_true, List.length_cons]
            omega }
    next => cases hs

theorem inv_scheduleSignal {n : Nat} {s s1 : ThreadPool} (h : Inv n s)
    (hs : scheduleSignal s = .ok s1) : Inv n s1 := by
  unfold scheduleSignal at hs
  split at hs
  next hl =>
    cases hs
    have ha := h.avail
    simp only [pushed, hl, if_true] at ha
    exact
      { h with
        lockQueue := by simp
        avail := by
          simp only [pushed, signal, Bool.false_eq_true, if_false]
          omega }
  next => cases hs

theorem inv_waitEnter {n : Nat} {s : ThreadPool} (h : Inv n s) : Inv n (waitEnter s) := by
  unfold waitEnter
  split
  · exact { h with }
  · exact h

theorem inv_waitReturn {n : Nat} {s s1 : ThreadPool} (h : Inv n s)
    (hs : waitReturn s = .ok s1) : Inv n s1 := by
  unfold waitReturn at hs
  split at hs
  · cases hs
  · split at hs
    · cases hs
    · cases hs
      exact { h with }

theorem inv_destructor {n : Nat} {s s1 : ThreadPool} (h : Inv n s)
    (hs : destructorStep s = .ok s1) (hd : s1.done = false) : Inv n s1 := by
  unfold destructorStep at hs
  rcases h.dtorPc with hp | hp | hp <;> rw [hp] at hs <;> simp only at hs
  · split at hs <;> cases hs
    · exact { h with dtorPc := Or.inr (Or.inl rfl) }
    · exact { h with dtorPc := Or.inr (Or.inr rfl) }
  · split at hs
    · cases hs
    · cases hs
      exact { h with dtorPc := Or.inr (Or.inr rfl) }
  · cases hs
    simp at hd

theorem semWait_some {c d : Nat} (h : semWait c = some d) : c = d + 1 := by
  unfold semWait at h
  split at h
  · cases h
  · cases h; omega

theorem scan_busy (ws : List Worker) (q : List Task) :
    busy (scan ws q).1 + (scan ws q).2.length = busy ws + q.length := by
  have h1 := busy_add_freeSlots ws
  have h2 := busy_add_freeSlots (scan ws q).1
  have h3 := scan_length ws q
  have h4 := scan_freeSlots ws q
  have h5 := scan_queue_length ws q
  omega

theorem inv_dispatcher {n : Nat} {s s1 : ThreadPool} (h : Inv n s)
    (hs : dispatcherStep s = .ok s1) : Inv n s1 := by
  unfold dispatcherStep at hs
  split at hs
  next hp =>
    rw [if_neg (by simp [h.notDone])] at hs
    cases hs
    have ha := h.avail
    have hf := h.freeAcc
    rw [hp] at ha hf
    exact { h with
      dtLive := by simp
      avail := by simpa [tookTask, pushed] using ha
      freeAcc := by simpa [tookWorker] using hf }
  next hp =>
    split at hs
    · cases hs
    next c hc =>
      cases hs
      have hc := semWait_some hc
      have ha := h.avail
      have hf := h.freeAcc
      rw [hp] at ha hf
      simp only [tookTask, tookWorker, pushed] at ha hf
      exact { h with
        dtLive := by simp
        avail := by simp only [tookTask, pushed]; omega
        freeAcc := by simp only [tookWorker]; omega }
  next hp =>
    split at hs
    · cases hs
    next c hc =>
      cases hs
      have hc := semWait_some hc
      have ha := h.avail
      have hf := h.freeAcc
      rw [hp] at ha hf
      simp only [tookTask, tookWorker, pushed] at ha hf
      exact { h with
        dtLive := by simp
        avail := by simp only [tookTask, pushed]; omega
        freeAcc := by simp only [tookWorker]; omega }
  next hp =>
    split at hs
    · cases hs
    next hl =>
    cases hs
    have ha := h.avail
    have hf := h.freeAcc
    have hsur := h.surplus
    rw [hp] at ha hf
    simp only [tookTask, tookWorker, pushed, hl, if_false] at ha hf
    have q1 := scan_queue_length s.wts s.taskQueue
    have q2 := scan_freeSlots s.wts s.taskQueue
    have q3 := scan_busy s.wts s.taskQueue
    have q4 : completing (scan s.wts s.taskQueue).1 = completing s.wts :=
      scan_countP_ts (fun pc => decide (pc = .freed ∨ pc = .signalled)) _ _
    have q5 : unsignalled (scan s.wts s.taskQueue).1 = unsignalled s.wts :=
      scan_countP_ts (fun pc => decide (pc = .freed)) _ _
    refine
      { len := by simpa [scan_length] using h.len
        notDone := h.notDone
        dtorPc := h.dtorPc
        dtLive := by simp
        slots := scan_slots _ _ h.slots
        counter := ?_
        lockQueue := fun hl1 => absurd hl1 hl
        once := ?_
        order := ?_
        surplus := ?_
        avail := ?_
        freeAcc := ?_ }
    · have := h.counter
      simp only [q4]
      omega
    · have hp1 := scan_perm s.wts s.taskQueue
      exact (List.Perm.append_right s.executed hp1).trans h.once
    · simp only
      rw [scan_queue]
      exact (List.take_prefix _ _).trans h.order
    · simp only; omega
    · simp only [tookTask, pushed, hl, if_false]; omega
    · simp only [tookWorker, q5]; omega
  next hp =>
    cases hs

/-- What replacing slot `i` does to the four slot counts. -/
theorem counts_set {ws : List Worker} {i : Nat} {w : Worker} (v : Worker)
    (hw : ws[i]? = some w) :
    busy (ws.set i v) + (if w.free then 0 else 1) = busy ws + (if v.free then 0 else 1) ∧
    freeSlots (ws.set i v) + (if w.free then 1 else 0)
      = freeSlots ws + (if v.free then 1 else 0) ∧
    completing (ws.set i v) + (if w.ts = .freed ∨ w.ts = .signalled then 1 else 0)
      = completing ws + (if v.ts = .freed ∨ v.ts = .signalled then 1 else 0) ∧
    unsignalled (ws.set i v) + (if w.ts = .freed then 1 else 0)
      = unsignalled ws + (if v.ts = .freed then 1 else 0) := by
  have h1 := countP_set_slot (fun w => !w.free) ws i w v hw
  have h2 := countP_set_slot (fun w => w.free) ws i w v hw
  have h3 := countP_set_slot (fun w => decide (w.ts = .freed ∨ w.ts = .signalled)) ws i w v hw
  have h4 := countP_set_slot (fun w => decide (w.ts = .freed)) ws i w v hw
  refine ⟨?_, h2, ?_, ?_⟩
  · simp only [busy]
    cases hwf : w.free <;> cases hvf : v.free <;> simp [hwf, hvf] at h1 ⊢ <;> omega
  · simpa [completing] using h3
  · simpa [unsignalled] using h4

theorem inv_worker {n : Nat} {s s1 : ThreadPool} (id : Nat) (h : Inv n s)
    (hs : workerStep id s = .ok s1) : Inv n s1 := by
  unfold workerStep at hs
  split at hs
  · cases hs
  next w hw =>
    have hok : SlotOk w := h.slots w (mem_of_getElem?_slot hw)
    have hc := h.counter
    have ha := h.avail
    have hf := h.freeAcc
    split at hs
    next hp =>
      -- line 54: the loop test
      rw [if_neg (by simp [h.notDone])] at hs
      cases hs
      obtain ⟨c1, c2, c3, c4⟩ := counts_set { w with ts := .atWork } hw
      simp [hp] at c1 c2 c3 c4
      exact
        { len := by simpa using h.len
          notDone := h.notDone
          dtorPc := h.dtorPc
          dtLive := h.dtLive
          slots := forall_set_slot h.slots
            ⟨by have := hok.one; simp_all [woke], by have := hok.idle; simp_all [woke], by simp,
              hok.holds⟩
          counter := by simp only; omega
          lockQueue := h.lockQueue
          once := by simpa [held_set_busy _ _ _ { w with ts := .atWork } hw rfl rfl] using h.once
          order := h.order
          surplus := h.surplus
          avail := ha
          freeAcc := by simp only; omega }
    next hp =>
      -- line 56: the wake signal is taken
      split at hs
      · cases hs
      next c hcw =>
        cases hs
        have hcw := semWait_some hcw
        obtain ⟨c1, c2, c3, c4⟩ := counts_set { w with work := c, ts := .woken } hw
        simp [hp] at c1 c2 c3 c4
        have h1 := hok.one
        have h2 := hok.idle
        rw [hp] at h1 h2
        simp only [woke] at h1 h2
        exact
          { len := by simpa using h.len
            notDone := h.notDone
            dtorPc := h.dtorPc
            dtLive := h.dtLive
            slots := forall_set_slot h.slots
              ⟨by simp only [woke]; omega, fun hfree => by have := h2 hfree; omega, by simp,
                hok.holds⟩
            counter := by simp only; omega
            lockQueue := h.lockQueue
            once := by
              simpa [held_set_busy _ _ _ { w with work := c, ts := .woken } hw rfl rfl]
                using h.once
            order := h.order
            surplus := h.surplus
            avail := ha
            freeAcc := by simp only; omega }
    next hp =>
      -- line 59: the test of `done` after the wake
      rw [if_neg (by simp [h.notDone])] at hs
      cases hs
      obtain ⟨c1, c2, c3, c4⟩ := counts_set { w with ts := .running } hw
      simp [hp] at c1 c2 c3 c4
      exact
        { len := by simpa using h.len
          notDone := h.notDone
          dtorPc := h.dtorPc
          dtLive := h.dtLive
          slots := forall_set_slot h.slots
            ⟨by have := hok.one; simp_all [woke], by have := hok.idle; simp_all [woke], by simp,
              hok.holds⟩
          counter := by simp only; omega
          lockQueue := h.lockQueue
          once := by simpa [held_set_busy _ _ _ { w with ts := .running } hw rfl rfl] using h.once
          order := h.order
          surplus := h.surplus
          avail := ha
          freeAcc := by simp only; omega }
    next hp =>
      -- lines 62-65: the body returns and the slot is marked free
      split at hs
      · cases hs
      next t ht =>
        split at hs
        · cases hs
        · cases hs
          have h1 := hok.one
          have h2 := hok.idle
          rw [hp] at h1 h2
          simp only [woke] at h1 h2
          have hfree : w.free = false := by
            cases hwf : w.free
            · rfl
            · have := h2 hwf; omega
          obtain ⟨c1, c2, c3, c4⟩ := counts_set { w with free := true, ts := .freed } hw
          simp [hp, hfree] at c1 c2 c3 c4
          have hrel := held_set_release s.wts id w { w with free := true, ts := .freed } t
            hw hfree ht rfl
          exact
            { len := by simpa using h.len
              notDone := h.notDone
              dtorPc := h.dtorPc
              dtLive := h.dtLive
              slots := forall_set_slot h.slots
                ⟨by simp only [woke]; omega, fun _ => by simp only [woke]; omega, by simp,
                  fun hb => by simp at hb⟩
              counter := by simp only; omega
              lockQueue := h.lockQueue
              once := by
                refine List.Perm.trans ?_ h.once
                simp only [List.append_assoc]
                refine List.Perm.append_left _ ?_
                refine List.Perm.trans List.perm_middle ?_
                exact List.Perm.append_right _ hrel.symm
              order := h.order
              surplus := h.surplus
              avail := ha
              freeAcc := by simp only; omega }
    next hp =>
      -- line 66: `freeWorker.signal()`
      cases hs
      obtain ⟨c1, c2, c3, c4⟩ := counts_set { w with ts := .signalled } hw
      simp [hp] at c1 c2 c3 c4
      exact
        { len := by simpa using h.len
          notDone := h.notDone
          dtorPc := h.dtorPc
          dtLive := h.dtLive
          slots := forall_set_slot h.slots
            ⟨by have := hok.one; simp_all [woke], by have := hok.idle; simp_all [woke], by simp,
              hok.holds⟩
          counter := by simp only; omega
          lockQueue := h.lockQueue
          once := by
            simpa [held_set_busy _ _ _ { w with ts := .signalled } hw rfl rfl] using h.once
          order := h.order
          surplus := h.surplus
          avail := ha
          freeAcc := by simp only [signal]; omega }
    next hp =>
      -- line 69: `--tasksInProgress`
      cases hs
      obtain ⟨c1, c2, c3, c4⟩ :=
        counts_set { w with ts := .decremented (s.tasksInProgress - 1) } hw
      simp [hp] at c1 c2 c3 c4
      exact
        { len := by simpa using h.len
          notDone := h.notDone
          dtorPc := h.dtorPc
          dtLive := h.dtLive
          slots := forall_set_slot h.slots
            ⟨by have := hok.one; simp_all [woke], by have := hok.idle; simp_all [woke], by simp,
              hok.holds⟩
          counter := by simp only; omega
          lockQueue := h.lockQueue
          once := by
            simpa [held_set_busy _ _ _ { w with ts := .decremented (s.tasksInProgress - 1) }
              hw rfl rfl] using h.once
          order := h.order
          surplus := h.surplus
          avail := ha
          freeAcc := by simp only; omega }
    next r hp =>
      -- line 71: `tasksDone.signal()` when `remaining == 0`
      cases hs
      obtain ⟨c1, c2, c3, c4⟩ := counts_set { w with ts := .atLoop } hw
      simp [hp] at c1 c2 c3 c4
      exact
        { len := by simpa using h.len
          notDone := h.notDone
          dtorPc := h.dtorPc
          dtLive := h.dtLive
          slots := forall_set_slot h.slots
            ⟨by have := hok.one; simp_all [woke], by have := hok.idle; simp_all [woke], by simp,
              hok.holds⟩
          counter := by simp only; omega
          lockQueue := h.lockQueue
          once := by simpa [held_set_busy _ _ _ { w with ts := .atLoop } hw rfl rfl] using h.once
          order := h.order
          surplus := h.surplus
          avail := ha
          freeAcc := by simp only; omega }
    next hp =>
      cases hs

/-- Every state of a running pool satisfies the invariant. -/
theorem inv_of_running {n : Nat} {s : ThreadPool} (h : Running n s) : Inv n s := by
  induction h with
  | init => exact inv_new n
  | step t _ hs hd ih =>
    cases t with
    | scheduleEnter thunk =>
      simp only [exec, Except.ok.injEq] at hs
      exact hs ▸ inv_scheduleEnter thunk ih
    | schedulePush thunk => exact inv_schedulePush thunk ih hs
    | scheduleSignal => exact inv_scheduleSignal ih hs
    | waitEnter =>
      simp only [exec, Except.ok.injEq] at hs
      exact hs ▸ inv_waitEnter ih
    | waitReturn => exact inv_waitReturn ih hs
    | dispatcher => exact inv_dispatcher ih hs
    | worker id => exact inv_worker id ih hs
    | destructor => exact inv_destructor ih hs hd

/-! ## Runs -/

theorem exec_done {t : Thread} {s s1 : ThreadPool} (hs : exec t s = .ok s1)
    (hd : s.done = true) : s1.done = true := by
  cases t with
  | scheduleEnter thunk => cases hs; exact hd
  | schedulePush thunk =>
    simp only [exec, schedulePush] at hs
    repeat' split at hs
    all_goals first | (cases hs; done) | (cases hs; exact hd)
  | scheduleSignal =>
    simp only [exec, scheduleSignal] at hs
    repeat' split at hs
    all_goals first | (cases hs; done) | (cases hs; exact hd)
  | waitEnter =>
    cases hs
    unfold waitEnter
    split <;> exact hd
  | waitReturn =>
    simp only [exec, waitReturn] at hs
    repeat' split at hs
    all_goals first | (cases hs; done) | (cases hs; exact hd)
  | dispatcher =>
    simp only [exec, dispatcherStep] at hs
    repeat' split at hs
    all_goals first | (cases hs; done) | (cases hs; exact hd)
  | worker id =>
    simp only [exec, workerStep] at hs
    repeat' split at hs
    all_goals first | (cases hs; done) | (cases hs; exact hd)
  | destructor =>
    simp only [exec, destructorStep] at hs
    repeat' split at hs
    all_goals first | (cases hs; done) | (cases hs; first | exact hd | rfl)

theorem run_done : ∀ (ts : List Thread) {s s1 : ThreadPool}, run ts s = .ok s1 →
    s.done = true → s1.done = true
  | [], s, s1, hs, hd => by cases hs; exact hd
  | t :: ts, s, s1, hs, hd => by
    simp only [run] at hs
    split at hs
    next s2 h2 => exact run_done ts hs (exec_done h2 hd)
    next => cases hs

/-- A run that ends with `done` false stays among the states of a running pool. -/
theorem running_run {n : Nat} : ∀ (ts : List Thread) {s s1 : ThreadPool}, Running n s →
    run ts s = .ok s1 → s1.done = false → Running n s1
  | [], s, s1, h, hs, _ => by cases hs; exact h
  | t :: ts, s, s1, h, hs, hd => by
    simp only [run] at hs
    split at hs
    next s2 h2 =>
      have hd2 : s2.done = false := by
        cases hb : s2.done
        · rfl
        · rw [run_done ts hs hb] at hd; cases hd
      exact running_run ts (Running.step t h h2 hd2) hs hd
    next => cases hs

theorem held_length {ws : List Worker} (h : ∀ w ∈ ws, SlotOk w) :
    (held ws).length = busy ws := by
  induction ws with
  | nil => rfl
  | cons w ws ih =>
    have hw := h w (List.mem_cons_self _ _)
    rw [held_cons, List.length_append, ih (fun v hv => h v (List.mem_cons_of_mem _ hv))]
    simp only [busy, List.countP_cons]
    cases hf : w.free
    · have := hw.holds hf
      obtain ⟨t, ht⟩ := Option.isSome_iff_exists.1 this
      simp [ht]
      omega
    · simp

theorem running_slot_free {w : Worker} (h : SlotOk w) (hr : w.ts = .running) :
    w.free = false := by
  cases hf : w.free
  · rfl
  · have := h.idle hf
    rw [hr] at this
    simp [woke] at this

theorem executing_le_busy {ws : List Worker} (h : ∀ w ∈ ws, SlotOk w) :
    executing ws ≤ busy ws := by
  induction ws with
  | nil => simp [executing, busy]
  | cons w ws ih =>
    have hw := h w (List.mem_cons_self _ _)
    have := ih (fun v hv => h v (List.mem_cons_of_mem _ hv))
    simp only [executing, busy, List.countP_cons] at *
    by_cases hr : w.ts = .running
    · simp [hr, running_slot_free hw hr]
      omega
    · simp [hr]
      omega

/-- A call of `schedule` that runs from entry to return while the lock is free
and no other thread steps has the effect of the whole body. -/
theorem scheduleCall_run (t : Task) (s : ThreadPool) (hl : s.queueLock = false) :
    run (scheduleCall t) s = .ok (schedule t s) := by
  have e : (schedule t s) = { schedule t s with queueLock := false } := by
    simp only [schedule, hl]
  rw [e]
  simp [run, scheduleCall, exec, scheduleEnter, schedulePush, scheduleSignal, schedule, hl,
    signal]

/-- C8 as amended: in every state of a running pool `tasksInProgress` is the
number of queued tasks plus the number of slots that are not free plus the
number of workers between their write `free = true` and their decrement plus
the number of callers of `schedule` between their increment and their push; it
is never negative; together with the tasks already executed it accounts for
every submission.  With `schedule` and a completion each taken as one step (no
caller and no worker between those lines) it equals queued plus non-free slots
and is zero exactly when nothing is queued and no slot is busy; when it is
zero no worker is executing.  A call of `schedule` adds exactly one, at its
line 77 and not after; the decrement of a completing worker takes exactly one;
the dispatcher leaves it alone. -/
theorem inflight_counter_accounting (n : Nat) (s : ThreadPool) (h : Running n s) :
    s.tasksInProgress
      = s.taskQueue.length + busy s.wts + completing s.wts + s.entering.length ∧
    0 ≤ s.tasksInProgress ∧
    s.tasksInProgress + s.executed.length
      = s.submitted.length + completing s.wts + s.entering.length ∧
    (completing s.wts = 0 → s.entering = [] →
      s.tasksInProgress = s.taskQueue.length + busy s.wts ∧
      (s.tasksInProgress = 0 ↔ s.taskQueue = [] ∧ busy s.wts = 0) ∧
      (s.tasksInProgress = 0 → executing s.wts = 0)) ∧
    (∀ t, (schedule t s).tasksInProgress = s.tasksInProgress + 1) ∧
    (s.queueLock = false → ∀ t, run (scheduleCall t) s = .ok (schedule t s)) ∧
    (∀ t, (scheduleEnter t s).tasksInProgress = s.tasksInProgress + 1) ∧
    (∀ t s1, schedulePush t s = .ok s1 → s1.tasksInProgress = s.tasksInProgress) ∧
    (∀ s1, scheduleSignal s = .ok s1 → s1.tasksInProgress = s.tasksInProgress) ∧
    (∀ id w s1, s.wts[id]? = some w → workerStep id s = .ok s1 →
      s1.tasksInProgress = if w.ts = .signalled then s.tasksInProgress - 1
        else s.tasksInProgress) ∧
    (∀ s1, dispatcherStep s = .ok s1 → s1.tasksInProgress = s.tasksInProgress) := by
  have hi := inv_of_running h
  have hc := hi.counter
  have hl := hi.once.length_eq
  have hh := held_length hi.slots
  have he := executing_le_busy hi.slots
  simp only [List.length_append] at hl
  refine ⟨hc, by omega, by omega, ?_, fun _ => rfl, fun hlock t => scheduleCall_run t s hlock,
    fun _ => rfl, ?_, ?_, ?_, ?_⟩
  · intro h0 he0
    have hen : s.entering.length = 0 := by simp [he0]
    refine ⟨by omega, ?_, by omega⟩
    constructor
    · intro hz
      refine ⟨List.length_eq_zero.1 (by omega), by omega⟩
    · rintro ⟨hq, hb⟩
      simp [hc, hq, hb, h0, hen]
  · intro t s1 hs
    simp only [schedulePush] at hs
    repeat' split at hs
    all_goals first | (cases hs; done) | (cases hs; rfl)
  · intro s1 hs
    simp only [scheduleSignal] at hs
    repeat' split at hs
    all_goals first | (cases hs; done) | (cases hs; rfl)
  · intro id w s1 hw hs
    simp only [workerStep, hw] at hs
    repeat' split at hs
    all_goals first | (cases hs; done) | (cases hs; simp_all)
  · intro s1 hs
    simp only [dispatcherStep] at hs
    repeat' split at hs
    all_goals first | (cases hs; done) | (cases hs; rfl)

/-- C2: in every state of a running pool the queue, the thunks held by the
slots that are not free and the log of executed tasks together are a
rearrangement of the submitted tasks: each submission is in exactly one of the
three places.  When the submitted tasks are pairwise distinct, every one of
them occurs exactly once across the three places, no queued task is held by a
slot, and no task was executed twice.  When `tasksInProgress` is zero the
executed tasks are exactly the submitted ones, each once. -/
theorem exactly_once_execution (n : Nat) (s : ThreadPool) (h : Running n s) :
    (s.taskQueue ++ held s.wts ++ s.executed).Perm s.submitted ∧
    (∀ t, s.taskQueue.count t + (held s.wts).count t + s.executed.count t
      = s.submitted.count t) ∧
    (s.submitted.Nodup →
      (∀ t ∈ s.submitted,
        s.taskQueue.count t + (held s.wts).count t + s.executed.count t = 1) ∧
      (∀ t ∈ s.taskQueue, t ∉ held s.wts) ∧
      s.executed.Nodup) ∧
    (s.tasksInProgress = 0 →
      s.taskQueue = [] ∧ held s.wts = [] ∧ s.executed.Perm s.submitted ∧
      (s.submitted.Nodup → ∀ t ∈ s.submitted, s.executed.count t = 1)) := by
  have hi := inv_of_running h
  have hp := hi.once
  have hcount : ∀ t, s.taskQueue.count t + (held s.wts).count t + s.executed.count t
      = s.submitted.count t := by
    intro t
    have := hp.count_eq t
    simp only [List.count_append] at this
    omega
  refine ⟨hp, hcount, ?_, ?_⟩
  · intro hnd
    have hnd2 : (s.taskQueue ++ held s.wts ++ s.executed).Nodup := hp.nodup_iff.2 hnd
    refine ⟨?_, ?_, ?_⟩
    · intro t ht
      rw [hcount t]
      exact List.count_eq_one_of_mem hnd ht
    · intro t htq hth
      have h1 := (List.nodup_append.1 hnd2).1
      exact (List.nodup_append.1 h1).2.2 htq hth
    · exact (List.nodup_append.1 hnd2).2.1
  · intro h0
    have hc := hi.counter
    have hh := held_length hi.slots
    have hq : s.taskQueue = [] := List.length_eq_zero.1 (by omega)
    have hhe : held s.wts = [] := List.length_eq_zero.1 (by omega)
    have hpe : s.executed.Perm s.submitted := by simpa [hq, hhe] using hp
    refine ⟨hq, hhe, hpe, ?_⟩
    intro hnd t ht
    rw [hpe.count_eq t]
    exact List.count_eq_one_of_mem hnd ht

/-- The slot at index `i` after the scan: a free slot that has fewer free slots
before it than there are queued tasks receives the task that many places from
the back of the queue; every other slot is unchanged. -/
theorem scan_slot : ∀ (ws : List Worker) (q : List Task) (i : Nat) (w : Worker),
    ws[i]? = some w →
    (scan ws q).1[i]? = some
      (if w.free = true ∧ freeSlots (ws.take i) < q.length then
        { w with
          thunk := q[q.length - 1 - freeSlots (ws.take i)]?
          free := false
          work := signal w.work }
      else w)
  | [], q, i, w, h => by simp at h
  | a :: ws, q, 0, w, h => by
    simp at h
    subst h
    simp only [scan]
    cases hf : a.free <;> cases q with
    | nil => simp [freeSlots]
    | cons b l => simp [freeSlots, List.getLast?_eq_getElem?]
  | a :: ws, q, i + 1, w, h => by
    simp only [List.getElem?_cons_succ] at h
    have ih1 := scan_slot ws q i w h
    have ih2 := scan_slot ws q.dropLast i w h
    simp only [scan]
    split
    next hc =>
      simp only [Bool.and_eq_true, Bool.not_eq_true', List.isEmpty_eq_false] at hc
      simp only [List.getElem?_cons_succ, ih2, List.take_succ_cons, freeSlots,
        List.countP_cons, hc.1, if_true, List.length_dropLast]
      generalize List.countP (fun w => w.free) (List.take i ws) = r
      have hlen : 0 < q.length := List.length_pos.2 hc.2
      by_cases hcond : w.free = true ∧ r < q.length - 1
      · have hcond2 : w.free = true ∧ r + 1 < q.length := ⟨hcond.1, by omega⟩
        rw [if_pos hcond, if_pos hcond2, List.getElem?_dropLast,
          if_pos (by omega : q.length - 1 - 1 - r < q.length - 1)]
        have e : q.length - 1 - 1 - r = q.length - 1 - (r + 1) := by omega
        rw [e]
      · have hcond2 : ¬ (w.free = true ∧ r + 1 < q.length) := fun hh =>
          hcond ⟨hh.1, by omega⟩
        rw [if_neg hcond, if_neg hcond2]
    next hc =>
      simp only [List.getElem?_cons_succ, ih1, List.take_succ_cons, freeSlots,
        List.countP_cons]
      generalize List.countP (fun w => w.free) (List.take i ws) = r
      cases hf : a.free
      · simp
      · have hq : q = [] := by simpa [hf] using hc
        simp [hq]

/-- C6: in every state of a running pool of `n` workers at most `n` tasks are
executing; for every slot the pending count of its wake signal plus one for an
executing worker is at most one, and is zero when the slot is free; an
executing worker's slot is not free; the scan of the dispatcher leaves every
slot that is not free as it is; and a step that starts a task is taken in a
state with fewer than `n` executing tasks, with none when `n = 1`. -/
theorem bounded_concurrency (n : Nat) (s : ThreadPool) (h : Running n s) :
    s.wts.length = n ∧
    executing s.wts ≤ n ∧
    (∀ w ∈ s.wts, w.work + inThunk w.ts ≤ 1 ∧
      (w.free = true → w.work + inThunk w.ts = 0) ∧
      (w.ts = .running → w.free = false)) ∧
    (∀ (i : Nat) (w : Worker), s.wts[i]? = some w → w.free = false →
      (scan s.wts s.taskQueue).1[i]? = some w) ∧
    (∀ id s1, workerStep id s = .ok s1 → executing s1.wts = executing s.wts + 1 →
      executing s.wts < n ∧ (n = 1 → executing s.wts = 0)) := by
  have hi := inv_of_running h
  refine ⟨hi.len, ?_, ?_, ?_, ?_⟩
  · rw [← hi.len]
    exact List.countP_le_length _
  · intro w hw
    have hok := hi.slots w hw
    have h1 := hok.one
    have h2 := hok.idle
    refine ⟨?_, ?_, running_slot_free hok⟩
    · cases hts : w.ts <;> simp_all [woke, inThunk]
    · intro hf
      have := h2 hf
      cases hts : w.ts <;> simp_all [woke, inThunk]
  · intro i w hw hf
    rw [scan_slot _ _ i w hw]
    simp [hf]
  · intro id s1 hs he
    have hi1 := inv_worker id hi hs
    have hle : executing s1.wts ≤ s1.wts.length := List.countP_le_length _
    rw [hi1.len] at hle
    exact ⟨by omega, fun h1 => by omega⟩

theorem freeSlots_split : ∀ (ws : List Worker) (i : Nat) (w : Worker), ws[i]? = some w →
    freeSlots (ws.take i) + (if w.free = true then 1 else 0) + freeSlots (ws.drop (i + 1))
      = freeSlots ws
  | [], i, w, h => by simp at h
  | a :: ws, 0, w, h => by
    simp at h
    subst h
    simp [freeSlots, List.countP_cons]
    omega
  | a :: ws, i + 1, w, h => by
    simp only [List.getElem?_cons_succ] at h
    have ih := freeSlots_split ws i w h
    simp only [freeSlots, List.take_succ_cons, List.drop_succ_cons, List.countP_cons] at *
    omega

theorem semWait_pos {c : Nat} (h : 0 < c) : semWait c = some (c - 1) := by
  unfold semWait
  rw [if_neg (by omega)]

theorem run_cons_ok {t : Thread} {ts : List Thread} {s s1 : ThreadPool}
    (h : exec t s = .ok s1) : run (t :: ts) s = run ts s1 := by
  simp only [run, h]

/-- C10: the scan of the dispatcher over slots `ws` with queue `q` assigns
exactly `min f q` tasks, where `f` is the number of free slots: the queue keeps
its first `|q| - min f |q|` tasks, the free slot that has `r < min f |q|` free
slots before it receives the task `r` places from the back of the queue, its
`free` becomes false and its `work` is signalled once, and every other slot is
unchanged; afterwards the queue is empty or no slot is free.  A dispatcher pass
from the top of the loop takes one signal of `tasksAvailable` and one of
`freeWorker` and, taking `queueLock`, performs this scan; while a caller of
`schedule` holds the lock the pass waits for it at line 38 after taking the two
signals. -/
theorem scan_is_maximal (ws : List Worker) (q : List Task) :
    (scan ws q).2.length + min (freeSlots ws) q.length = q.length ∧
    freeSlots (scan ws q).1 + min (freeSlots ws) q.length = freeSlots ws ∧
    busy (scan ws q).1 = busy ws + min (freeSlots ws) q.length ∧
    (scan ws q).2 = q.take (q.length - min (freeSlots ws) q.length) ∧
    (scan ws q).1.length = ws.length ∧
    (∀ (i : Nat) (w : Worker), ws[i]? = some w →
      (scan ws q).1[i]? = some
        (if w.free = true ∧ freeSlots (ws.take i) < min (freeSlots ws) q.length then
          { w with
            thunk := q[q.length - 1 - freeSlots (ws.take i)]?
            free := false
            work := w.work + 1 }
        else w)) ∧
    ((scan ws q).2 = [] ∨ freeSlots (scan ws q).1 = 0) ∧
    (∀ s : ThreadPool, s.dt = .atTasksAvailable → s.wts = ws → s.taskQueue = q →
      0 < s.tasksAvailable → 0 < s.freeWorker →
      (s.queueLock = false →
        run [.dispatcher, .dispatcher, .dispatcher] s = .ok
          { s with
            tasksAvailable := s.tasksAvailable - 1
            freeWorker := s.freeWorker - 1
            wts := (scan ws q).1
            taskQueue := (scan ws q).2
            dt := .atLoop
            assigned := s.assigned + min (freeSlots ws) q.length
            iterations := s.iterations + 1 }) ∧
      (s.queueLock = true →
        run [.dispatcher, .dispatcher] s = .ok
          { s with
            tasksAvailable := s.tasksAvailable - 1
            freeWorker := s.freeWorker - 1
            dt := .atScan } ∧
        run [.dispatcher, .dispatcher, .dispatcher] s = .error .blocked)) := by
  have h1 := scan_queue_length ws q
  have h2 := scan_freeSlots ws q
  have h3 := scan_busy ws q
  have h4 := scan_queue ws q
  refine ⟨by omega, by omega, by omega, ?_, scan_length ws q, ?_, ?_, ?_⟩
  · rw [h4]
    congr 1
    omega
  · intro i w hw
    rw [scan_slot ws q i w hw]
    have hs := freeSlots_split ws i w hw
    by_cases hf : w.free = true
    · have e : (freeSlots (ws.take i) < min (freeSlots ws) q.length) ↔
          (freeSlots (ws.take i) < q.length) := by
        simp only [hf, if_true] at hs
        omega
      simp only [e, signal]
    · simp [hf]
  · by_cases hle : q.length ≤ freeSlots ws
    · left
      exact List.length_eq_zero.1 (by omega)
    · right
      omega
  · intro s hdt hws hq hta hfw
    subst hws hq
    have e1 : exec .dispatcher s = .ok
        { s with tasksAvailable := s.tasksAvailable - 1, dt := .atFreeWorker } := by
      simp only [exec, dispatcherStep, hdt, semWait_pos hta]
    have e2 : exec .dispatcher
        { s with tasksAvailable := s.tasksAvailable - 1, dt := .atFreeWorker } = .ok
        { s with tasksAvailable := s.tasksAvailable - 1, freeWorker := s.freeWorker - 1,
                 dt := .atScan } := by
      simp only [exec, dispatcherStep, semWait_pos hfw]
    have e : s.taskQueue.length - (scan s.wts s.taskQueue).2.length
        = min (freeSlots s.wts) s.taskQueue.length := by omega
    refine ⟨fun hl => ?_, fun hl => ⟨?_, ?_⟩⟩
    · rw [run_cons_ok e1, run_cons_ok e2]
      simp only [run, exec, dispatcherStep, e, hl, Bool.false_eq_true, if_false]
    · rw [run_cons_ok e1, run_cons_ok e2]
      rfl
    · rw [run_cons_ok e1, run_cons_ok e2]
      simp only [run, exec, dispatcherStep, hl, if_true]

/-- The state after a run that can be taken and leaves `done` false is a state
of a running pool. -/
theorem running_stateAfter (n : Nat) (ts : List Thread) (s : ThreadPool)
    (h : run ts (ThreadPool.new n) = .ok s) (hd : s.done = false) : Running n s :=
  running_run ts Running.init h hd

/-- C1, evaluated on the code: with one worker, task A is scheduled and
completes while no caller is inside `wait()`, which leaves one signal in
`tasksDone`; B is scheduled afterwards, with no `wait()` in progress; the
caller then enters `wait()`, sees `tasksInProgress > 0`, takes the stale
signal, and `wait()` returns with `tasksInProgress = 1` and B still queued. -/
theorem wait_returns_with_task_queued :
    Running 1 (stateAfter 1 staleSignalRun) ∧
    (stateAfter 1 staleSignalRun).waiters = 0 ∧
    (stateAfter 1 staleSignalRun).tasksDone = 1 ∧
    (waitEnter (stateAfter 1 staleSignalRun)).waiters = 1 ∧
    (run [.waitEnter, .waitReturn] (stateAfter 1 staleSignalRun)).map
      (fun s => (s.waiters, s.tasksInProgress, s.taskQueue, s.executed))
      = .ok (0, 1, [taskB], [taskA]) :=
  ⟨running_stateAfter 1 staleSignalRun _ rfl rfl, rfl, rfl, rfl, rfl⟩

/-- C3, evaluated on the code: with one worker, A is scheduled and completes,
then B is scheduled, then the pool is destroyed.  The `wait()` of the
destructor takes the signal left by A, so `done = true` is written while B is
queued and `tasksInProgress = 1`; the dispatcher and the worker leave their
loops and the destructor returns with B never executed. -/
theorem shutdown_drops_queued_task :
    (run (shutdownRun.take 3) (stateAfter 1 staleSignalRun)).map
      (fun s => (s.done, s.dtor, s.tasksInProgress, s.taskQueue, s.executed))
      = .ok (true, .atSignalTasksAvailable, 1, [taskB], [taskA]) ∧
    (run shutdownRun (stateAfter 1 staleSignalRun)).map
      (fun s => (s.dtor, s.dt, s.wts.map Worker.ts, s.taskQueue, s.executed, s.submitted))
      = .ok (.destroyed, .exited, [.exited], [taskB], [taskA], [taskB, taskA]) :=
  ⟨rfl, rfl⟩

/-- C5, the claim fails: with one worker, A is scheduled and then B, so the
queue is `[B, A]` with B the most recently scheduled and the one slot free; the
dispatcher pass gives the slot A and leaves B queued. -/
theorem dispatch_is_not_lifo :
    Running 1 (stateAfter 1 twoQueuedRun) ∧
    (stateAfter 1 twoQueuedRun).submitted = [taskB, taskA] ∧
    (stateAfter 1 twoQueuedRun).taskQueue = [taskB, taskA] ∧
    freeSlots (stateAfter 1 twoQueuedRun).wts = 1 ∧
    (dispatcherStep (stateAfter 1 twoQueuedRun)).map
      (fun s => (s.wts.map (fun w => (w.free, w.thunk)), s.taskQueue))
      = .ok ([(false, some taskA)], [taskB]) :=
  ⟨running_stateAfter 1 twoQueuedRun _ rfl rfl, rfl, rfl, rfl, rfl⟩

/-- C9, the claim fails in two places.  First state, one worker: a caller of
`schedule(A)` has pushed A and not yet signalled; the dispatcher is between
iterations, in `tasksAvailable.wait()`, with `tasksAvailable = 0` and one task
queued, and it is blocked.  Second state, two workers: the dispatcher is
blocked in `freeWorker.wait()` with C queued, while slot 1 is free and its
worker is in `work.wait()`, not between `free = true` and
`freeWorker.signal()`; the signal still to come is that of worker 0, whose slot
was handed B before it signalled. -/
theorem dispatcher_blocked_with_work_pending :
    (Running 1 (stateAfter 1 pushedRun) ∧
      (stateAfter 1 pushedRun).dt = .atTasksAvailable ∧
      atTop (stateAfter 1 pushedRun).dt = true ∧
      (stateAfter 1 pushedRun).tasksAvailable = 0 ∧
      (stateAfter 1 pushedRun).taskQueue = [taskA] ∧
      dispatcherStep (stateAfter 1 pushedRun) = .error .blocked) ∧
    (Running 2 (stateAfter 2 pendingSignalRun) ∧
      (stateAfter 2 pendingSignalRun).dt = .atFreeWorker ∧
      (stateAfter 2 pendingSignalRun).freeWorker = 0 ∧
      dispatcherStep (stateAfter 2 pendingSignalRun) = .error .blocked ∧
      (stateAfter 2 pendingSignalRun).taskQueue = [taskC] ∧
      (stateAfter 2 pendingSignalRun).wts.map (fun w => (w.free, w.ts))
        = [(false, .freed), (true, .atWork)]) :=
  ⟨⟨running_stateAfter 1 pushedRun _ rfl rfl, rfl, rfl, rfl, rfl, rfl⟩,
    ⟨running_stateAfter 2 pendingSignalRun _ rfl rfl, rfl, rfl, rfl, rfl, rfl⟩⟩

theorem freeSlots_pos_of_mem {ws : List Worker} {v : Worker} (hv : v ∈ ws)
    (hf : v.free = true) : 0 < freeSlots ws :=
  List.countP_pos_iff.2 ⟨v, hv, hf⟩

theorem two_free_slots {ws : List Worker} {i j : Nat} {w v : Worker}
    (hw : ws[i]? = some w) (hv : ws[j]? = some v) (hij : j ≠ i)
    (hwf : w.free = true) (hvf : v.free = true) : 2 ≤ freeSlots ws := by
  have hs := freeSlots_split ws i w hw
  simp only [hwf, if_true] at hs
  rcases Nat.lt_or_gt_of_ne hij with hlt | hgt
  · have hm : v ∈ ws.take i := by
      apply mem_of_getElem?_slot (i := j)
      rw [List.getElem?_take_of_lt hlt, hv]
    have := freeSlots_pos_of_mem hm hvf
    omega
  · have hm : v ∈ ws.drop (i + 1) := by
      apply mem_of_getElem?_slot (i := j - (i + 1))
      rw [List.getElem?_drop, ← hv]
      congr 1
      omega
    have := freeSlots_pos_of_mem hm hvf
    omega

/-- C5 as amended: in a state of a running pool the queue is the front part
of the submission log (latest first), so its back is the earliest scheduled of
the queued tasks.  When the queue holds at least two tasks and slot `i` is the
only free slot, the scan gives slot `i` the task at the back of the queue,
marks it busy and signals it once, leaves every other slot unchanged, and the
later scheduled tasks stay queued in their order. -/
theorem dispatch_is_fifo (n : Nat) (s : ThreadPool) (h : Running n s)
    (i : Nat) (w : Worker) (hw : s.wts[i]? = some w) (hfree : w.free = true)
    (hone : freeSlots s.wts = 1) (hq : 2 ≤ s.taskQueue.length) :
    (∃ earlier, s.submitted = s.taskQueue ++ earlier) ∧
    (scan s.wts s.taskQueue).1[i]? = some
      { w with thunk := s.taskQueue.getLast?, free := false, work := w.work + 1 } ∧
    (scan s.wts s.taskQueue).2 = s.taskQueue.dropLast ∧
    (∃ later t, s.taskQueue = later ++ [t] ∧ later ≠ [] ∧
      (scan s.wts s.taskQueue).2 = later ∧
      ((scan s.wts s.taskQueue).1[i]?).map Worker.thunk = some (some t)) ∧
    (∀ (j : Nat) (v : Worker), j ≠ i → s.wts[j]? = some v →
      (scan s.wts s.taskQueue).1[j]? = some v) := by
  have hi := inv_of_running h
  have hs := freeSlots_split s.wts i w hw
  simp only [hfree, if_true] at hs
  have hrank : freeSlots (s.wts.take i) = 0 := by omega
  have hslot : (scan s.wts s.taskQueue).1[i]? = some
      { w with thunk := s.taskQueue.getLast?, free := false, work := w.work + 1 } := by
    rw [scan_slot _ _ i w hw, hrank, if_pos ⟨hfree, by omega⟩, List.getLast?_eq_getElem?]
    simp [signal]
  have hqueue : (scan s.wts s.taskQueue).2 = s.taskQueue.dropLast := by
    rw [scan_queue, hone, List.dropLast_eq_take]
  have hne : s.taskQueue ≠ [] := by
    intro hnil
    rw [hnil] at hq
    simp at hq
  obtain ⟨earlier, hearlier⟩ := hi.order
  refine ⟨⟨earlier, hearlier.symm⟩, hslot, hqueue, ?_, ?_⟩
  · refine ⟨s.taskQueue.dropLast, s.taskQueue.getLast hne, ?_, ?_, hqueue, ?_⟩
    · exact (List.dropLast_append_getLast hne).symm
    · intro hnil
      have := congrArg List.length hnil
      simp at this
      omega
    · rw [hslot]
      simp [List.getLast?_eq_getLast _ hne]
  · intro j v hj hv
    rw [scan_slot _ _ j v hv]
    have hvf : v.free = false := by
      cases hvf : v.free
      · rfl
      · have := two_free_slots hw hv hj hfree hvf
        omega
    simp [hvf]

/-- The amended C5 at a pool of one worker with queue `[B, A]` and slot 0
free. -/
theorem dispatch_is_fifo_witness :
    (scan (stateAfter 1 twoQueuedRun).wts (stateAfter 1 twoQueuedRun).taskQueue).2
      = [taskB] :=
  (dispatch_is_fifo 1 (stateAfter 1 twoQueuedRun)
    (running_stateAfter 1 twoQueuedRun _ rfl rfl) 0
    { free := true, workerId := 1, thunk := none, work := 0, ts := .atLoop }
    rfl rfl rfl (by decide)).2.2.1

theorem blocked_atTasksAvailable {s : ThreadPool} (hp : s.dt = .atTasksAvailable)
    (hb : dispatcherStep s = .error .blocked) : s.tasksAvailable = 0 := by
  simp only [dispatcherStep, hp, semWait] at hb
  by_cases h0 : s.tasksAvailable = 0
  · exact h0
  · rw [if_neg h0] at hb
    cases hb

theorem blocked_atFreeWorker {s : ThreadPool} (hp : s.dt = .atFreeWorker)
    (hb : dispatcherStep s = .error .blocked) : s.freeWorker = 0 := by
  simp only [dispatcherStep, hp, semWait] at hb
  by_cases h0 : s.freeWorker = 0
  · exact h0
  · rw [if_neg h0] at hb
    cases hb

/-- C9 as amended: in every state of a running pool the dispatcher has
completed no more iterations than it has assigned tasks; when it is between
iterations, `tasksAvailable` plus one for a caller of `schedule` that has
pushed and not yet signalled is at least the number of queued tasks,
`freeWorker` plus the workers that have written `free = true` and not yet
signalled is at least the number of free slots, and both surpluses equal the
tasks assigned minus the iterations completed.  Hence, when the dispatcher is
blocked in `tasksAvailable.wait()`, at most the one task is queued whose
caller has yet to signal, and that signal lets the dispatcher go on; with no
caller between push and signal nothing is queued.  When it is blocked in
`freeWorker.wait()` the free slots are no more than the workers that have yet
to signal, so a free slot then comes with a worker that is about to signal
`freeWorker`, and that signal lets the dispatcher go on. -/
theorem signal_accounting (n : Nat) (s : ThreadPool) (h : Running n s) :
    s.iterations ≤ s.assigned ∧
    (atTop s.dt = true →
      s.taskQueue.length ≤ s.tasksAvailable + pushed s ∧
      freeSlots s.wts ≤ s.freeWorker + unsignalled s.wts ∧
      s.tasksAvailable + pushed s - s.taskQueue.length = s.assigned - s.iterations ∧
      s.freeWorker + unsignalled s.wts - freeSlots s.wts = s.assigned - s.iterations ∧
      (s.queueLock = false → s.taskQueue.length ≤ s.tasksAvailable)) ∧
    (s.dt = .atTasksAvailable → dispatcherStep s = .error .blocked →
      s.taskQueue.length ≤ pushed s ∧
      (s.queueLock = false → s.taskQueue = []) ∧
      (s.taskQueue ≠ [] →
        s.queueLock = true ∧
        ∃ s1 s2, scheduleSignal s = .ok s1 ∧ dispatcherStep s1 = .ok s2)) ∧
    (s.dt = .atFreeWorker → dispatcherStep s = .error .blocked →
      freeSlots s.wts ≤ unsignalled s.wts ∧
      ((∃ w ∈ s.wts, w.free = true) →
        ∃ id v s1 s2, s.wts[id]? = some v ∧ v.ts = .freed ∧
          workerStep id s = .ok s1 ∧ dispatcherStep s1 = .ok s2)) := by
  have hi := inv_of_running h
  have ha := hi.avail
  have hf := hi.freeAcc
  have hs := hi.surplus
  have hpu : pushed s ≤ 1 := by
    unfold pushed
    split <;> omega
  refine ⟨hs, ?_, ?_, ?_⟩
  · intro htop
    have hpz : s.queueLock = false → pushed s = 0 := fun hl => by simp [pushed, hl]
    cases hp : s.dt <;> rw [hp] at ha hf htop <;>
      simp only [tookTask, tookWorker, atTop] at ha hf htop <;>
      first
      | exact ⟨by omega, by omega, by omega, by omega, fun hl => by
          have := hpz hl
          omega⟩
      | cases htop
  · intro hp hb
    have h0 := blocked_atTasksAvailable hp hb
    rw [hp] at ha
    simp only [tookTask] at ha
    have hle : s.taskQueue.length ≤ pushed s := by omega
    refine ⟨hle, ?_, ?_⟩
    · intro hl
      have : pushed s = 0 := by simp [pushed, hl]
      exact List.length_eq_zero.1 (by omega)
    · intro hne
      have hpos : 0 < s.taskQueue.length := List.length_pos.2 hne
      have hl : s.queueLock = true := by
        cases hq : s.queueLock
        · have : pushed s = 0 := by simp [pushed, hq]
          omega
        · rfl
      have e1 : scheduleSignal s = .ok
          { s with tasksAvailable := signal s.tasksAvailable, queueLock := false } := by
        simp only [scheduleSignal, hl, if_true]
      have e2 : dispatcherStep
          { s with tasksAvailable := signal s.tasksAvailable, queueLock := false } = .ok
          { s with tasksAvailable := signal s.tasksAvailable - 1, queueLock := false,
                   dt := .atFreeWorker } := by
        simp only [dispatcherStep, hp, signal, semWait_pos (Nat.succ_pos _)]
      exact ⟨hl, _, _, e1, e2⟩
  · intro hp hb
    have h0 := blocked_atFreeWorker hp hb
    rw [hp] at ha hf
    simp only [tookTask, tookWorker] at ha hf
    have hle : freeSlots s.wts ≤ unsignalled s.wts := by omega
    refine ⟨hle, ?_⟩
    rintro ⟨w, hw, hwf⟩
    have hpos := freeSlots_pos_of_mem hw hwf
    have hu : 0 < unsignalled s.wts := by omega
    obtain ⟨v, hv, hvp⟩ := List.countP_pos_iff.1 hu
    have hvt : v.ts = .freed := by simpa using hvp
    obtain ⟨id, hid, hget⟩ := List.getElem_of_mem hv
    have hget2 : s.wts[id]? = some v := by
      rw [List.getElem?_eq_getElem hid, hget]
    have e1 : workerStep id s = .ok
        { s with
          freeWorker := signal s.freeWorker
          wts := s.wts.set id { v with ts := .signalled } } := by
      simp only [workerStep, hget2, hvt]
    have e2 : dispatcherStep
        { s with
          freeWorker := signal s.freeWorker
          wts := s.wts.set id { v with ts := .signalled } } = .ok
        { s with
          freeWorker := signal s.freeWorker - 1
          wts := s.wts.set id { v with ts := .signalled }
          dt := .atScan } := by
      simp only [dispatcherStep, hp, signal, semWait_pos (Nat.succ_pos _)]
    exact ⟨id, v, _, _, hget2, hvt, e1, e2⟩

/-- The amended C9 at a state of a pool of two workers in which the dispatcher
is blocked in `freeWorker.wait()`, one slot is free and one worker has yet to
signal. -/
theorem signal_accounting_witness :
    freeSlots (stateAfter 2 pendingSignalRun).wts
      ≤ unsignalled (stateAfter 2 pendingSignalRun).wts :=
  ((signal_accounting 2 (stateAfter 2 pendingSignalRun)
    (running_stateAfter 2 pendingSignalRun _ rfl rfl)).2.2.2 rfl rfl).1

/-- C2 at a state of a pool of one worker in which A has been executed and B
is queued. -/
theorem exactly_once_execution_witness :
    ((stateAfter 1 staleSignalRun).taskQueue ++ held (stateAfter 1 staleSignalRun).wts
      ++ (stateAfter 1 staleSignalRun).executed).Perm (stateAfter 1 staleSignalRun).submitted :=
  (exactly_once_execution 1 (stateAfter 1 staleSignalRun)
    (running_stateAfter 1 staleSignalRun _ rfl rfl)).1

/-- C6 at a state of a pool of one worker whose worker is executing T. -/
theorem bounded_concurrency_witness :
    (stateAfter 1 throwingRun).wts.length = 1 ∧ executing (stateAfter 1 throwingRun).wts ≤ 1 :=
  ⟨(bounded_concurrency 1 (stateAfter 1 throwingRun)
      (running_stateAfter 1 throwingRun _ rfl rfl)).1,
    (bounded_concurrency 1 (stateAfter 1 throwingRun)
      (running_stateAfter 1 throwingRun _ rfl rfl)).2.1⟩

/-- The amended C8 at a state of a pool of one worker with A queued behind B,
before the scan. -/
theorem inflight_counter_accounting_witness :
    (stateAfter 1 twoQueuedRun).tasksInProgress
      = (stateAfter 1 twoQueuedRun).taskQueue.length + busy (stateAfter 1 twoQueuedRun).wts
        + completing (stateAfter 1 twoQueuedRun).wts
        + (stateAfter 1 twoQueuedRun).entering.length :=
  (inflight_counter_accounting 1 (stateAfter 1 twoQueuedRun)
    (running_stateAfter 1 twoQueuedRun _ rfl rfl)).1

/-- C8, the claim fails: with one worker, A is scheduled and the dispatcher
completes a pass (each taken as one step, no completion under way).  A is in
slot 0, worker 0 has not yet started it: no task is queued and no worker is
executing, and `tasksInProgress` is 1, not 0. -/
theorem counter_positive_with_no_worker_executing :
    Running 1 (stateAfter 1 assignedRun) ∧
    (stateAfter 1 assignedRun).taskQueue = [] ∧
    executing (stateAfter 1 assignedRun).wts = 0 ∧
    completing (stateAfter 1 assignedRun).wts = 0 ∧
    (stateAfter 1 assignedRun).entering = [] ∧
    (stateAfter 1 assignedRun).queueLock = false ∧
    (stateAfter 1 assignedRun).wts.map (fun w => (w.free, w.thunk, w.work, w.ts))
      = [(false, some taskA, 1, .atLoop)] ∧
    (stateAfter 1 assignedRun).tasksInProgress = 1 :=
  ⟨running_stateAfter 1 assignedRun _ rfl rfl, rfl, rfl, rfl, rfl, rfl, rfl, rfl⟩

theorem getElem?_set_slot {ws : List Worker} {i : Nat} {w : Worker} (v : Worker)
    (hw : ws[i]? = some w) : (ws.set i v)[i]? = some v := by
  have hlt : i < ws.length := by
    rw [List.getElem?_eq_some] at hw
    exact hw.1
  simp [List.getElem?_set_self, hlt]

theorem scan_nil : ∀ (ws : List Worker), scan ws [] = (ws, [])
  | [] => rfl
  | w :: ws => by simp [scan, scan_nil ws]

theorem weight_set :
    ∀ (ws : List Worker) (i : Nat) (w v : Worker), ws[i]? = some w →
      ((ws.set i v).map (fun w => workerWeight w.ts)).sum + workerWeight w.ts
        = (ws.map (fun w => workerWeight w.ts)).sum + workerWeight v.ts
  | [], i, w, v, h => by simp at h
  | a :: ws, 0, w, v, h => by
    simp at h
    subst h
    simp
    omega
  | a :: ws, i + 1, w, v, h => by
    simp only [List.getElem?_cons_succ] at h
    have ih := weight_set ws i w v h
    simp only [List.set_cons_succ, List.map_cons, List.sum_cons]
    omega

theorem getElem?_set_cases {ws : List Worker} {i j : Nat} {v u : Worker}
    (h : (ws.set i v)[j]? = some u) : (j = i ∧ u = v) ∨ (j ≠ i ∧ ws[j]? = some u) := by
  by_cases hij : i = j
  · subst hij
    left
    rw [List.getElem?_set] at h
    simp only [if_true] at h
    split at h
    · exact ⟨rfl, (Option.some.inj h).symm⟩
    · cases h
  · right
    rw [List.getElem?_set_ne hij] at h
    exact ⟨fun e => hij e.symm, h⟩

theorem parked_of_idle {n : Nat} {s : ThreadPool} (h : Running n s)
    (hfree : ∀ w ∈ s.wts, w.free = true) (htip : s.tasksInProgress = 0) :
    ∀ w ∈ s.wts, Parked s.done w ∧ w.work = 0 := by
  have hi := inv_of_running h
  have hc := hi.counter
  have hcz : completing s.wts = 0 := by omega
  rw [completing, List.countP_eq_zero] at hcz
  intro w hw
  have hok := hi.slots w hw
  have hz := hok.idle (hfree w hw)
  have hnc := hcz w hw
  simp only [decide_eq_true_eq, not_or] at hnc
  have hwork : w.work = 0 := by omega
  have hwoke : woke w.ts = 0 := by omega
  refine ⟨⟨hfree w hw, ?_, hnc.1, hnc.2, ?_, ?_⟩, hwork⟩
  · intro hr
    rw [hr] at hwoke
    simp [woke] at hwoke
  · intro hr
    rw [hr] at hwoke
    simp [woke] at hwoke
  · intro hp
    omega

theorem stopping_start {n : Nat} {s : ThreadPool} (h : Running n s)
    (hq : s.taskQueue = []) (hfree : ∀ w ∈ s.wts, w.free = true)
    (htip : s.tasksInProgress = 0) (hd : s.dtor = .notCalled) : Stopping n s s := by
  have hi := inv_of_running h
  have hp := parked_of_idle h hfree htip
  exact
    { len := hi.len
      queue := hq
      log := rfl
      asg := rfl
      tip := htip
      unlocked := by
        cases hl : s.queueLock
        · rfl
        · exact absurd hq (hi.lockQueue hl)
      stageDone := by simp [hi.notDone, hd, stage]
      notInWait := by simp [hd]
      sentLe := by simp [hd, sentUpTo]
      joinedLe := by simp [hd, joinedUpTo]
      slots := fun w hw => (hp w hw).1
      taOk := by simp [hd, stage]
      fwOk := by simp [hd, stage]
      workOk := by simp [hd, sentUpTo]
      dtJoined := by simp [hd, stage]
      joined := by simp [hd, joinedUpTo] }

theorem stopping_dispatcher {n : Nat} {s0 s s1 : ThreadPool} (h : Stopping n s0 s)
    (hs : dispatcherStep s = .ok s1) :
    Stopping n s0 s1 ∧ shutdownMeasure n s1 < shutdownMeasure n s := by
  unfold dispatcherStep at hs
  split at hs
  next hp =>
    have hj : ¬ 7 ≤ stage s.dtor := fun h7 => by
      have := h.dtJoined h7
      rw [hp] at this
      cases this
    split at hs
    next hdone =>
      cases hs
      refine ⟨{ h with
        taOk := by simp
        fwOk := by simp
        dtJoined := by simp }, ?_⟩
      simp only [shutdownMeasure, dispatcherWeight, hp]
      omega
    next hdone =>
      cases hs
      have h3 : ¬ 3 ≤ stage s.dtor := fun h3 => hdone (h.stageDone.2 h3)
      refine ⟨{ h with
        taOk := fun (h4 : 4 ≤ stage s.dtor) => by omega
        fwOk := fun (h5 : 5 ≤ stage s.dtor) => by omega
        dtJoined := fun (h7 : 7 ≤ stage s.dtor) => by omega }, ?_⟩
      simp only [shutdownMeasure, dispatcherWeight, hp]
      omega
  next hp =>
    have hj : ¬ 7 ≤ stage s.dtor := fun h7 => by
      have := h.dtJoined h7
      rw [hp] at this
      cases this
    split at hs
    · cases hs
    next c hc =>
      cases hs
      have hc := semWait_some hc
      refine ⟨{ h with
        taOk := by simp
        fwOk := fun h5 _ => h.fwOk h5 (Or.inl hp)
        dtJoined := fun (h7 : 7 ≤ stage s.dtor) => by omega }, ?_⟩
      simp only [shutdownMeasure, dispatcherWeight, hp]
      omega
  next hp =>
    have hj : ¬ 7 ≤ stage s.dtor := fun h7 => by
      have := h.dtJoined h7
      rw [hp] at this
      cases this
    split at hs
    · cases hs
    next c hc =>
      cases hs
      refine ⟨{ h with
        taOk := by simp
        fwOk := by simp
        dtJoined := fun (h7 : 7 ≤ stage s.dtor) => by omega }, ?_⟩
      simp only [shutdownMeasure, dispatcherWeight, hp]
      omega
  next hp =>
    have hj : ¬ 7 ≤ stage s.dtor := fun h7 => by
      have := h.dtJoined h7
      rw [hp] at this
      cases this
    rw [if_neg (by simp [h.unlocked])] at hs
    cases hs
    have hq := h.queue
    refine ⟨?_, ?_⟩
    · exact
        { len := by simpa [hq, scan_nil] using h.len
          queue := by simp [hq, scan_nil]
          log := h.log
          asg := by simpa [hq, scan_nil] using h.asg
          tip := h.tip
          unlocked := h.unlocked
          stageDone := h.stageDone
          notInWait := h.notInWait
          sentLe := h.sentLe
          joinedLe := h.joinedLe
          slots := by simpa [hq, scan_nil] using h.slots
          taOk := by simp
          fwOk := by simp
          workOk := by simpa [hq, scan_nil] using h.workOk
          dtJoined := fun (h7 : 7 ≤ stage s.dtor) => by omega
          joined := by simpa [hq, scan_nil] using h.joined }
    · simp only [shutdownMeasure, dispatcherWeight, hp, hq, scan_nil]
      omega
  next hp =>
    cases hs

/-- Replacing the slot of a worker that has not left by a parked one keeps the
shutdown invariant. -/
theorem stopping_set {n : Nat} {s0 s : ThreadPool} (h : Stopping n s0 s) {id : Nat}
    {w : Worker} (hw : s.wts[id]? = some w) (v : Worker) (td : Nat) (hne : w.ts ≠ .exited)
    (hv : Parked s.done v)
    (hwork : v.ts = .atWork → id < sentUpTo n s.dtor → 0 < v.work) :
    Stopping n s0 { s with wts := s.wts.set id v, tasksDone := td } :=
  { len := by simpa using h.len
    queue := h.queue
    log := h.log
    asg := h.asg
    tip := h.tip
    unlocked := h.unlocked
    stageDone := h.stageDone
    notInWait := h.notInWait
    sentLe := h.sentLe
    joinedLe := h.joinedLe
    slots := forall_set_slot h.slots hv
    taOk := h.taOk
    fwOk := h.fwOk
    workOk := by
      intro i u hu hi hts
      rcases getElem?_set_cases hu with ⟨rfl, rfl⟩ | ⟨_, hu1⟩
      · exact hwork hts hi
      · exact h.workOk i u hu1 hi hts
    dtJoined := h.dtJoined
    joined := by
      intro i u hu hi
      rcases getElem?_set_cases hu with ⟨rfl, rfl⟩ | ⟨_, hu1⟩
      · exact absurd (h.joined i w hw hi) hne
      · exact h.joined i u hu1 hi }

theorem measure_set {n : Nat} {s : ThreadPool} {id : Nat} {w : Worker}
    (hw : s.wts[id]? = some w) (v : Worker) (td : Nat)
    (hlt : workerWeight v.ts < workerWeight w.ts) :
    shutdownMeasure n { s with wts := s.wts.set id v, tasksDone := td }
      < shutdownMeasure n s := by
  have := weight_set s.wts id w v hw
  simp only [shutdownMeasure, dispatcherWeight]
  omega

theorem stopping_worker {n : Nat} {s0 s s1 : ThreadPool} (id : Nat) (h : Stopping n s0 s)
    (hs : workerStep id s = .ok s1) :
    Stopping n s0 s1 ∧ shutdownMeasure n s1 < shutdownMeasure n s := by
  unfold workerStep at hs
  split at hs
  · cases hs
  next w hw =>
    have hpk : Parked s.done w := h.slots w (mem_of_getElem?_slot hw)
    split at hs
    next hp =>
      cases hs
      refine ⟨stopping_set h hw _ s.tasksDone (by simp [hp])
        ⟨hpk.free, ?_, ?_, ?_, ?_, hpk.work⟩ ?_, measure_set hw _ _ ?_⟩
      · simp only; split <;> simp
      · simp only; split <;> simp
      · simp only; split <;> simp
      · simp only; split <;> simp
      · intro hts hi
        simp only at hts hi ⊢
        split at hts
        · cases hts
        next hdone =>
          have h3 : ¬ 3 ≤ stage s.dtor := fun h3 => hdone (h.stageDone.2 h3)
          have : sentUpTo n s.dtor = 0 := by
            cases hd : s.dtor <;> simp [hd, stage, sentUpTo] at h3 ⊢
          omega
      · simp only [hp]
        split <;> simp [workerWeight]
    next hp =>
      split at hs
      · cases hs
      next c hc =>
        cases hs
        have hc := semWait_some hc
        have hdone : s.done = true := hpk.work (by omega)
        exact ⟨stopping_set h hw _ s.tasksDone (by simp [hp])
          ⟨hpk.free, by simp, by simp, by simp, fun _ => hdone, fun _ => hdone⟩ (by simp),
          measure_set hw _ _ (by simp [hp, workerWeight])⟩
    next hp =>
      cases hs
      have hdone : s.done = true := hpk.woken hp
      exact ⟨stopping_set h hw _ s.tasksDone (by simp [hp])
        ⟨hpk.free, by simp [hdone], by simp [hdone], by simp [hdone], by simp [hdone],
          hpk.work⟩ (by simp [hdone]),
        measure_set hw _ _ (by simp [hp, hdone, workerWeight])⟩
    next hp => exact absurd hp hpk.notRunning
    next hp => exact absurd hp hpk.notFreed
    next hp => exact absurd hp hpk.notSignalled
    next r hp =>
      cases hs
      exact ⟨stopping_set h hw _ _ (by simp [hp])
        ⟨hpk.free, by simp, by simp, by simp, by simp, hpk.work⟩ (by simp),
        measure_set hw _ _ (by simp [hp, workerWeight])⟩
    next hp =>
      cases hs

theorem getElem?_none_le {ws : List Worker} {i : Nat} (h : ws[i]? = none) :
    ws.length ≤ i := by
  simpa using h

theorem getElem?_some_lt {ws : List Worker} {i : Nat} {w : Worker} (h : ws[i]? = some w) :
    i < ws.length := by
  rw [List.getElem?_eq_some] at h
  exact h.1

theorem stopping_lt {n : Nat} {s0 s : ThreadPool} (h : Stopping n s0 s) {j : Nat} {u : Worker}
    (hu : s.wts[j]? = some u) : j < n := by
  have := getElem?_some_lt hu
  have := h.len
  omega

theorem stopping_destructor {n : Nat} {s0 s s1 : ThreadPool} (h : Stopping n s0 s)
    (hs : destructorStep s = .ok s1) :
    Stopping n s0 s1 ∧ shutdownMeasure n s1 < shutdownMeasure n s := by
  have hsd := h.stageDone
  have hta := h.taOk
  have hfw := h.fwOk
  have hdj := h.dtJoined
  have hsl := h.sentLe
  have hjl := h.joinedLe
  have hwk := h.workOk
  have hjn := h.joined
  unfold destructorStep at hs
  split at hs
  next hp =>
    rw [if_neg (by simp [h.tip])] at hs
    cases hs
    rw [hp] at hsd
    simp only [stage] at hsd
    refine ⟨{ h with
      stageDone := by simpa [stage] using hsd
      notInWait := by simp
      sentLe := by simp [sentUpTo]
      joinedLe := by simp [joinedUpTo]
      taOk := by simp [stage]
      fwOk := by simp [stage]
      workOk := by simp [sentUpTo]
      dtJoined := by simp [stage]
      joined := by simp [joinedUpTo] }, ?_⟩
    simp only [shutdownMeasure, dispatcherWeight, destructorWeight, hp]
    omega
  next hp => exact absurd hp h.notInWait
  next hp =>
    cases hs
    refine ⟨{ h with
      stageDone := by simp [stage]
      notInWait := by simp
      sentLe := by simp [sentUpTo]
      joinedLe := by simp [joinedUpTo]
      slots := fun w hw =>
        let p := h.slots w hw
        ⟨p.free, p.notRunning, p.notFreed, p.notSignalled, fun _ => rfl, fun _ => rfl⟩
      taOk := by simp [stage]
      fwOk := by simp [stage]
      workOk := by simp [sentUpTo]
      dtJoined := by simp [stage]
      joined := by simp [joinedUpTo] }, ?_⟩
    simp only [shutdownMeasure, dispatcherWeight, destructorWeight, hp]
    omega
  next hp =>
    cases hs
    rw [hp] at hsd
    refine ⟨{ h with
      stageDone := by simpa [stage] using hsd
      notInWait := by simp
      sentLe := by simp [sentUpTo]
      joinedLe := by simp [joinedUpTo]
      taOk := by simp [signal]
      fwOk := by simp [stage]
      workOk := by simp [sentUpTo]
      dtJoined := by simp [stage]
      joined := by simp [joinedUpTo] }, ?_⟩
    simp only [shutdownMeasure, dispatcherWeight, destructorWeight, hp, signal]
    omega
  next hp =>
    cases hs
    rw [hp] at hsd hta
    refine ⟨{ h with
      stageDone := by simpa [stage] using hsd
      notInWait := by simp
      sentLe := by simp [sentUpTo]
      joinedLe := by simp [joinedUpTo]
      taOk := fun _ hdt => hta (by simp [stage]) hdt
      fwOk := by simp [signal]
      workOk := by simp [sentUpTo]
      dtJoined := by simp [stage]
      joined := by simp [joinedUpTo] }, ?_⟩
    simp only [shutdownMeasure, dispatcherWeight, destructorWeight, hp, signal]
    omega
  next i hp =>
    rw [hp] at hsd hta hfw hsl hwk
    simp only [stage, sentUpTo] at hsd hta hfw hsl hwk
    have hdone : s.done = true := hsd.2 (by omega)
    split at hs
    next hlt =>
      cases hs
      obtain ⟨w, hw⟩ : ∃ w, s.wts[i]? = some w := ⟨s.wts[i], List.getElem?_eq_getElem hlt⟩
      have hpk := h.slots w (mem_of_getElem?_slot hw)
      have hsw : signalWork i s.wts = s.wts.set i { w with work := signal w.work } := by
        simp only [signalWork, hw]
      have hwt := weight_set s.wts i w { w with work := signal w.work } hw
      simp only at hwt
      refine ⟨
        { len := by simpa [hsw] using h.len
          queue := h.queue
          log := h.log
          asg := h.asg
          tip := h.tip
          unlocked := h.unlocked
          stageDone := by simpa [stage] using hsd
          notInWait := by simp
          sentLe := by simp only [sentUpTo]; have := h.len; omega
          joinedLe := by simp [joinedUpTo]
          slots := by
            simp only [hsw]
            exact forall_set_slot h.slots
              ⟨hpk.free, hpk.notRunning, hpk.notFreed, hpk.notSignalled, hpk.woken,
                fun _ => hdone⟩
          taOk := fun _ hdt => hta (by omega) hdt
          fwOk := fun _ hdt => hfw (by omega) hdt
          workOk := by
            intro j u hu hj hts
            simp only [hsw] at hu
            simp only [sentUpTo] at hj
            rcases getElem?_set_cases hu with ⟨rfl, rfl⟩ | ⟨hne, hu1⟩
            · simp [signal]
            · exact hwk j u hu1 (by omega) hts
          dtJoined := by simp [stage]
          joined := by simp [joinedUpTo] }, ?_⟩
      simp only [shutdownMeasure, dispatcherWeight, destructorWeight, hp, hsw]
      have := h.len
      omega
    next hge =>
      cases hs
      refine ⟨{ h with
        stageDone := by simpa [stage] using hsd
        notInWait := by simp
        sentLe := by simp [sentUpTo]
        joinedLe := by simp [joinedUpTo]
        taOk := fun _ hdt => hta (by omega) hdt
        fwOk := fun _ hdt => hfw (by omega) hdt
        workOk := by
          intro j u hu hj hts
          have hjn : j < n := stopping_lt h hu
          have := h.len
          exact hwk j u hu (by omega) hts
        dtJoined := by simp [stage]
        joined := by simp [joinedUpTo] }, ?_⟩
      simp only [shutdownMeasure, dispatcherWeight, destructorWeight, hp]
      omega
  next hp =>
    rw [hp] at hsd hta hfw hsl hwk
    simp only [stage, sentUpTo] at hsd hta hfw hsl hwk
    split at hs
    next hex =>
      cases hs
      refine ⟨{ h with
        stageDone := by simpa [stage] using hsd
        notInWait := by simp
        sentLe := by simp [sentUpTo]
        joinedLe := by simp [joinedUpTo]
        taOk := fun _ hdt => hta (by omega) hdt
        fwOk := fun _ hdt => hfw (by omega) hdt
        workOk := fun j u hu _ hts => hwk j u hu (stopping_lt h hu) hts
        dtJoined := fun _ => hex
        joined := by simp [joinedUpTo] }, ?_⟩
      simp only [shutdownMeasure, dispatcherWeight, destructorWeight, hp]
      omega
    next => cases hs
  next i hp =>
    rw [hp] at hsd hta hfw hsl hwk hdj hjl hjn
    simp only [stage, sentUpTo, joinedUpTo] at hsd hta hfw hsl hwk hdj hjl hjn
    split at hs
    next hnone =>
      cases hs
      have hle := getElem?_none_le hnone
      refine ⟨{ h with
        stageDone := by simpa [stage] using hsd
        notInWait := by simp
        sentLe := by simp [sentUpTo]
        joinedLe := by simp [joinedUpTo]
        taOk := fun _ hdt => hta (by omega) hdt
        fwOk := fun _ hdt => hfw (by omega) hdt
        workOk := fun j u hu _ hts => hwk j u hu (stopping_lt h hu) hts
        dtJoined := fun _ => hdj (by omega)
        joined := fun j u hu _ => hjn j u hu (by
          have hjlt : j < n := stopping_lt h hu
          have := h.len
          omega) }, ?_⟩
      simp only [shutdownMeasure, dispatcherWeight, destructorWeight, hp]
      omega
    next w hw =>
      have hlt := getElem?_some_lt hw
      split at hs
      next hex =>
        cases hs
        refine ⟨{ h with
          stageDone := by simpa [stage] using hsd
          notInWait := by simp
          sentLe := by simp [sentUpTo]
          joinedLe := by simp only [joinedUpTo]; have := h.len; omega
          taOk := fun _ hdt => hta (by omega) hdt
          fwOk := fun _ hdt => hfw (by omega) hdt
          workOk := fun j u hu _ hts => hwk j u hu (stopping_lt h hu) hts
          dtJoined := fun _ => hdj (by omega)
          joined := by
            intro j u hu hj
            simp only [joinedUpTo] at hj
            by_cases hji : j = i
            · subst hji
              rw [hw] at hu
              cases hu
              exact hex
            · exact hjn j u hu (by omega) }, ?_⟩
        simp only [shutdownMeasure, dispatcherWeight, destructorWeight, hp]
        have := h.len
        omega
      next => cases hs
  next hp =>
    cases hs

theorem stopping_exec {n : Nat} {s0 s s1 : ThreadPool} {t : Thread} (h : Stopping n s0 s)
    (ht : isInternal t = true) (hs : exec t s = .ok s1) :
    Stopping n s0 s1 ∧ shutdownMeasure n s1 < shutdownMeasure n s := by
  cases t with
  | scheduleEnter thunk => cases ht
  | schedulePush thunk => cases ht
  | scheduleSignal => cases ht
  | waitEnter => cases ht
  | waitReturn => cases ht
  | dispatcher => exact stopping_dispatcher h hs
  | worker id => exact stopping_worker id h hs
  | destructor => exact stopping_destructor h hs

theorem stopping_of_shutdown {n : Nat} {s0 s : ThreadPool} (h0 : Stopping n s0 s0)
    (h : Shutdown s0 s) : Stopping n s0 s := by
  induction h with
  | start => exact h0
  | step t _ ht hs ih => exact (stopping_exec ih ht hs).1

/-- During the shutdown of an idle pool some thread can step until the
destructor has returned. -/
theorem stopping_progress {n : Nat} {s0 s : ThreadPool} (h : Stopping n s0 s)
    (hnd : s.dtor ≠ .destroyed) :
    ∃ t s1, isInternal t = true ∧ exec t s = .ok s1 := by
  have hta := h.taOk
  have hfw := h.fwOk
  have hwk := h.workOk
  have ok_of : ∀ t, isInternal t = true → (∃ s1, exec t s = .ok s1) →
      ∃ t s1, isInternal t = true ∧ exec t s = .ok s1 :=
    fun t ht ⟨s1, h1⟩ => ⟨t, s1, ht, h1⟩
  cases hp : s.dtor with
  | notCalled =>
    apply ok_of .destructor rfl
    simp only [exec, destructorStep, hp]
    rw [if_neg (by simp [h.tip])]
    exact ⟨_, rfl⟩
  | inWait => exact absurd hp h.notInWait
  | atSetDone =>
    apply ok_of .destructor rfl
    simp only [exec, destructorStep, hp]
    exact ⟨_, rfl⟩
  | atSignalTasksAvailable =>
    apply ok_of .destructor rfl
    simp only [exec, destructorStep, hp]
    exact ⟨_, rfl⟩
  | atSignalFreeWorker =>
    apply ok_of .destructor rfl
    simp only [exec, destructorStep, hp]
    exact ⟨_, rfl⟩
  | atSignalWork i =>
    apply ok_of .destructor rfl
    simp only [exec, destructorStep, hp]
    split <;> exact ⟨_, rfl⟩
  | atJoinDispatcher =>
    rw [hp] at hta hfw
    simp only [stage] at hta hfw
    cases hdt : s.dt with
    | exited =>
      apply ok_of .destructor rfl
      simp only [exec, destructorStep, hp, hdt, if_true]
      exact ⟨_, rfl⟩
    | atLoop =>
      apply ok_of .dispatcher rfl
      simp only [exec, dispatcherStep, hdt]
      split <;> exact ⟨_, rfl⟩
    | atTasksAvailable =>
      have hpos := hta (by omega) hdt
      apply ok_of .dispatcher rfl
      simp only [exec, dispatcherStep, hdt, semWait_pos hpos]
      exact ⟨_, rfl⟩
    | atFreeWorker =>
      have hpos := hfw (by omega) (Or.inr hdt)
      apply ok_of .dispatcher rfl
      simp only [exec, dispatcherStep, hdt, semWait_pos hpos]
      exact ⟨_, rfl⟩
    | atScan =>
      apply ok_of .dispatcher rfl
      simp only [exec, dispatcherStep, hdt]
      rw [if_neg (by simp [h.unlocked])]
      exact ⟨_, rfl⟩
  | atJoinWorker i =>
    rw [hp] at hwk
    simp only [sentUpTo] at hwk
    cases hw : s.wts[i]? with
    | none =>
      apply ok_of .destructor rfl
      simp only [exec, destructorStep, hp, hw]
      exact ⟨_, rfl⟩
    | some w =>
      have hpk := h.slots w (mem_of_getElem?_slot hw)
      cases hts : w.ts with
      | exited =>
        apply ok_of .destructor rfl
        simp only [exec, destructorStep, hp, hw, hts, if_true]
        exact ⟨_, rfl⟩
      | atLoop =>
        apply ok_of (.worker i) rfl
        simp only [exec, workerStep, hw, hts]
        exact ⟨_, rfl⟩
      | atWork =>
        have hpos := hwk i w hw (stopping_lt h hw) hts
        apply ok_of (.worker i) rfl
        simp only [exec, workerStep, hw, hts, semWait_pos hpos]
        exact ⟨_, rfl⟩
      | woken =>
        apply ok_of (.worker i) rfl
        simp only [exec, workerStep, hw, hts]
        exact ⟨_, rfl⟩
      | running => exact absurd hts hpk.notRunning
      | freed => exact absurd hts hpk.notFreed
      | signalled => exact absurd hts hpk.notSignalled
      | decremented r =>
        apply ok_of (.worker i) rfl
        simp only [exec, workerStep, hw, hts]
        exact ⟨_, rfl⟩
  | destroyed => exact absurd hp hnd

/-- During the shutdown of an idle pool, a dispatcher that is in
`tasksAvailable.wait()` after the destructor has signalled passes both waits,
assigns nothing and leaves its loop. -/
theorem stopping_dispatcher_leaves {n : Nat} {s0 s : ThreadPool} (h : Stopping n s0 s)
    (h5 : 5 ≤ stage s.dtor) (hdt : s.dt = .atTasksAvailable) :
    run [.dispatcher, .dispatcher, .dispatcher, .dispatcher] s = .ok
      { s with
        tasksAvailable := s.tasksAvailable - 1
        freeWorker := s.freeWorker - 1
        dt := .exited
        iterations := s.iterations + 1 } := by
  have hta := h.taOk (by omega) hdt
  have hfw := h.fwOk h5 (Or.inl hdt)
  have hdone : s.done = true := h.stageDone.2 (by omega)
  have hq := h.queue
  have e1 : exec .dispatcher s = .ok
      { s with tasksAvailable := s.tasksAvailable - 1, dt := .atFreeWorker } := by
    simp only [exec, dispatcherStep, hdt, semWait_pos hta]
  have e2 : exec .dispatcher
      { s with tasksAvailable := s.tasksAvailable - 1, dt := .atFreeWorker } = .ok
      { s with tasksAvailable := s.tasksAvailable - 1, freeWorker := s.freeWorker - 1,
               dt := .atScan } := by
    simp only [exec, dispatcherStep, semWait_pos hfw]
  have e3 : exec .dispatcher
      { s with tasksAvailable := s.tasksAvailable - 1, freeWorker := s.freeWorker - 1,
               dt := .atScan } = .ok
      { s with tasksAvailable := s.tasksAvailable - 1, freeWorker := s.freeWorker - 1,
               dt := .atLoop, iterations := s.iterations + 1 } := by
    simp only [exec, dispatcherStep, hq, scan_nil, List.length_nil, Nat.sub_self, Nat.add_zero,
      h.unlocked, Bool.false_eq_true, if_false]
  rw [run_cons_ok e1, run_cons_ok e2, run_cons_ok e3]
  simp only [run, exec, dispatcherStep, hdone, if_true]

/-- During the shutdown of an idle pool, a worker that is in `work.wait()`
after the destructor has signalled its slot passes the wait, sees `done` and
leaves without calling a task body. -/
theorem stopping_worker_leaves {n : Nat} {s0 s : ThreadPool} (h : Stopping n s0 s)
    {i : Nat} {w : Worker} (hw : s.wts[i]? = some w) (hts : w.ts = .atWork)
    (hi : i < sentUpTo n s.dtor) :
    run [.worker i, .worker i] s = .ok
      { s with wts := s.wts.set i { w with work := w.work - 1, ts := .exited } } := by
  have hpos := h.workOk i w hw hi hts
  have hdone : s.done = true := (h.slots w (mem_of_getElem?_slot hw)).work hpos
  have e1 : exec (.worker i) s = .ok
      { s with wts := s.wts.set i { w with work := w.work - 1, ts := .woken } } := by
    simp only [exec, workerStep, hw, hts, semWait_pos hpos]
  have g1 := getElem?_set_slot { w with work := w.work - 1, ts := .woken } hw
  rw [run_cons_ok e1]
  simp only [run, exec, workerStep, g1, hdone, if_true, List.set_set]

/-- C7: shutdown of an idle pool.  From any state of a running pool with an
empty queue, every slot free, `tasksInProgress = 0` and the destructor not yet
entered: the `wait()` of the destructor returns without blocking; and in every
state reached from there by steps of the destructor, the dispatcher and the
workers, in any order, no task body has been run and nothing has been
assigned; as long as the destructor has not returned some thread can take a
step; every step lowers `shutdownMeasure`, so the steps come to an end; a
dispatcher found in `tasksAvailable.wait()` once the destructor has sent its
two signals passes both waits, assigns nothing and leaves its loop; a worker
found in `work.wait()` once its slot was signalled passes the wait, sees `done`
and leaves without calling a task body; and once the destructor has returned,
both joins have completed: the dispatcher and every worker have left their
loops. -/
theorem idle_shutdown_terminates (n : Nat) (s0 : ThreadPool) (h : Running n s0)
    (hq : s0.taskQueue = []) (hfree : ∀ w ∈ s0.wts, w.free = true)
    (htip : s0.tasksInProgress = 0) (hd : s0.dtor = .notCalled) :
    destructorStep s0 = .ok { s0 with dtor := .atSetDone } ∧
    ∀ s, Shutdown s0 s →
      s.executed = s0.executed ∧ s.assigned = s0.assigned ∧ s.taskQueue = [] ∧
      (∀ w ∈ s.wts, w.free = true ∧ w.ts ≠ .running) ∧
      (s.dtor ≠ .destroyed → ∃ t s1, isInternal t = true ∧ exec t s = .ok s1) ∧
      (∀ t s1, isInternal t = true → exec t s = .ok s1 →
        shutdownMeasure n s1 < shutdownMeasure n s) ∧
      (5 ≤ stage s.dtor → s.dt = .atTasksAvailable →
        run [.dispatcher, .dispatcher, .dispatcher, .dispatcher] s = .ok
          { s with
            tasksAvailable := s.tasksAvailable - 1
            freeWorker := s.freeWorker - 1
            dt := .exited
            iterations := s.iterations + 1 }) ∧
      (∀ (i : Nat) (w : Worker), s.wts[i]? = some w → w.ts = .atWork →
        i < sentUpTo n s.dtor →
        run [.worker i, .worker i] s = .ok
          { s with wts := s.wts.set i { w with work := w.work - 1, ts := .exited } }) ∧
      (s.dtor = .destroyed → s.done = true ∧ s.dt = .exited ∧ ∀ w ∈ s.wts, w.ts = .exited) := by
  have h0 := stopping_start h hq hfree htip hd
  constructor
  · simp only [destructorStep, hd]
    rw [if_neg (by simp [htip])]
  · intro s hs
    have hst := stopping_of_shutdown h0 hs
    refine ⟨hst.log, hst.asg, hst.queue, ?_, stopping_progress hst, ?_,
      stopping_dispatcher_leaves hst, fun i w hw hts hi => stopping_worker_leaves hst hw hts hi,
      ?_⟩
    · intro w hw
      exact ⟨(hst.slots w hw).free, (hst.slots w hw).notRunning⟩
    · intro t s1 ht he
      exact (stopping_exec hst ht he).2
    · intro hdes
      have hsd := hst.stageDone
      have hdj := hst.dtJoined
      have hjn := hst.joined
      rw [hdes] at hsd hdj hjn
      simp only [stage, joinedUpTo] at hsd hdj hjn
      refine ⟨hsd.2 (by omega), hdj (by omega), ?_⟩
      intro w hw
      obtain ⟨i, hi, hget⟩ := List.getElem_of_mem hw
      have hget2 : s.wts[i]? = some w := by
        rw [List.getElem?_eq_getElem hi, hget]
      exact hjn i w hget2 (stopping_lt hst hget2)

theorem shutdown_run {s0 : ThreadPool} : ∀ (ts : List Thread) {s s1 : ThreadPool},
    Shutdown s0 s → (∀ t ∈ ts, isInternal t = true) → run ts s = .ok s1 → Shutdown s0 s1
  | [], s, s1, h, _, hs => by cases hs; exact h
  | t :: ts, s, s1, h, hall, hs => by
    simp only [run] at hs
    split at hs
    next s2 h2 =>
      exact shutdown_run ts (Shutdown.step t h (hall t (List.mem_cons_self _ _)) h2)
        (fun u hu => hall u (List.mem_cons_of_mem _ hu)) hs
    next => cases hs

/-- C7 at the pool of one worker on which nothing was ever scheduled: after
the run in which the dispatcher passes both waits and leaves, worker 0 passes
its wait and leaves and the destructor joins both, every thread has left. -/
theorem idle_shutdown_terminates_witness :
    (stateAfter 1 idleShutdownRun).dtor = .destroyed ∧
    (stateAfter 1 idleShutdownRun).done = true ∧
    (stateAfter 1 idleShutdownRun).dt = .exited ∧
    ∀ w ∈ (stateAfter 1 idleShutdownRun).wts, w.ts = .exited :=
  ⟨rfl,
    ((idle_shutdown_terminates 1 (ThreadPool.new 1) Running.init rfl (by decide) rfl rfl).2
      (stateAfter 1 idleShutdownRun)
      (shutdown_run idleShutdownRun Shutdown.start (by decide) rfl)).2.2.2.2.2.2.2.2 rfl⟩

end ThreadPoolModel
